import Mathlib

/-!
Verification development for the Start Menu Manager reconciliation engine
(`start_menu_manager.ps1`).  The PowerShell functions are embedded shallowly:
strings are lists of characters, PowerShell hashtables (which compare string
keys case-insensitively) are association lists looked up modulo ASCII case,
and the `-replace` operator's global, case-insensitive regex replacement is
implemented for the four concrete patterns the script uses.
-/

namespace SMM

/-- Strings are modelled as lists of characters. -/
abbrev Str := List Char

/-- Shorthand to turn a Lean string literal into the model's string type. -/
def str (s : String) : Str := s.data

/-- ASCII lower-casing of one character (PowerShell string comparison and
regex matching are case-insensitive by default). -/
def lc (c : Char) : Char :=
  if 65 ≤ c.toNat ∧ c.toNat ≤ 90 then Char.ofNat (c.toNat + 32) else c

/-- Lower-case an entire string. -/
def low (s : Str) : Str := s.map lc

/-- Case-insensitive string equality (PowerShell `-eq` on strings). -/
abbrev ceq (a b : Str) : Prop := low a = low b

/-- Case-insensitive equality of optional strings (used for folder paths,
where `none` denotes the Start Menu root). -/
abbrev odirCeq (a b : Option Str) : Prop := a.map low = b.map low

/-- Whitespace test for the regex class `\s` (ASCII subset). -/
def wsB (c : Char) : Bool :=
  c == ' ' || c == '\t' || c == '\n' || c == '\r' || c == '\x0b' || c == '\x0c'

/-- Digit test for the regex class `\d`. -/
def digB (c : Char) : Bool := decide (48 ≤ c.toNat ∧ c.toNat ≤ 57)

/-- Length of the maximal leading whitespace run. -/
def wsRun (s : Str) : Nat := (s.takeWhile wsB).length

/-- Length of the maximal leading digit run. -/
def digRun (s : Str) : Nat := (s.takeWhile digB).length

/-- Case-insensitive literal-prefix test (matching a fixed word of a regex
alternation against the input). -/
def ciPre : Str → Str → Bool
  | [], _ => true
  | _ :: _, [] => false
  | w :: ws, c :: cs => (lc w == lc c) && ciPre ws cs

/-- The closed set of parenthesized qualifiers stripped by the normalizer:
`(Preview|Beta|Insiders|64-bit|32-bit|x64|x86)`. -/
def archWords : List Str :=
  [str "Preview", str "Beta", str "Insiders", str "64-bit", str "32-bit",
   str "x64", str "x86"]

/-- Given the text after an opening parenthesis, return the length of an
alternation word that is followed immediately by `)`, if any. -/
def archAfterParen (t : Str) : Option Nat :=
  archWords.findSome? fun w =>
    if ciPre w t && ((t.drop w.length).head? == some ')') then some w.length
    else none

/-- Match length, at the head of `s`, of `\s*\((Preview|Beta|Insiders|64-bit|32-bit|x64|x86)\)`.
The greedy `\s*` must end exactly at the parenthesis (whitespace is never
`(`, so backtracking cannot produce another match). -/
def matchArch (s : Str) : Option Nat :=
  let w := wsRun s
  match s.drop w with
  | '(' :: t =>
    match archAfterParen t with
    | some wl => some (w + 1 + wl + 1)
    | none => none
  | _ => none

/-- Length consumed by the greedy `(\.\d+)*` tail of the version pattern. -/
def dotDigitsF : Nat → Str → Nat
  | 0, _ => 0
  | f + 1, s =>
    match s with
    | '.' :: r =>
      let d := digRun r
      if d = 0 then 0 else 1 + d + dotDigitsF f (r.drop d)
    | _ => 0

/-- Fuel-closed wrapper for `dotDigitsF`. -/
def dotDigits (s : Str) : Nat := dotDigitsF s.length s

/-- Match length, at the head of `s`, of `\s*v?\d+(\.\d+)*` (case-insensitive,
so `V` also matches `v?`). -/
def matchVer (s : Str) : Option Nat :=
  let w := wsRun s
  let t := s.drop w
  match t with
  | c :: r =>
    if lc c == 'v' && decide (0 < digRun r) then
      let d := digRun r
      some (w + 1 + d + dotDigits (r.drop d))
    else
      let d := digRun t
      if d = 0 then none else some (w + d + dotDigits (t.drop d))
  | [] => none

/-- Match length, at the head of `s`, of the end-anchored `\s+-\s+Setup$`:
the whole remaining text must be whitespace, `-`, whitespace, then exactly
`Setup`. -/
def matchSetup (s : Str) : Option Nat :=
  let w1 := wsRun s
  if w1 = 0 then none
  else
    match s.drop w1 with
    | '-' :: r =>
      let w2 := wsRun r
      if w2 = 0 then none
      else if ceq (r.drop w2) (str "Setup") then some (w1 + 1 + w2 + 5)
      else none
    | _ => none

/-- Match length, at the head of `s`, of `\s+`. -/
def matchWs (s : Str) : Option Nat :=
  let w := wsRun s
  if w = 0 then none else some w

/-- Global regex replacement: scan left to right, replacing each match and
continuing after it (the replacement text is not rescanned), as .NET
`Regex.Replace` does.  Structured on fuel so that it reduces by `rfl`. -/
def replaceAllF (m : Str → Option Nat) (repl : Str) : Nat → Str → Str
  | 0, s => s
  | _ + 1, [] => []
  | f + 1, c :: rest =>
    match m (c :: rest) with
    | some n =>
      if 0 < n then repl ++ replaceAllF m repl f ((c :: rest).drop n)
      else c :: replaceAllF m repl f rest
    | none => c :: replaceAllF m repl f rest

/-- Global regex replacement over a whole string (fuel instantiated). -/
def replaceAlls (m : Str → Option Nat) (repl : Str) (s : Str) : Str :=
  replaceAllF m repl s.length s

/-- .NET `String.Trim`: drop leading and trailing whitespace. -/
def trimStr (s : Str) : Str :=
  ((s.dropWhile wsB).reverse.dropWhile wsB).reverse

/-- Case-insensitive test for the `\.lnk$` pattern. -/
def endsLnk (s : Str) : Bool := (low (str ".lnk")).isSuffixOf (low s)

/-- `Normalize_ShortcutName` (lines 100-122): strip architecture/channel
qualifiers, version tokens, a trailing `- Setup`, collapse whitespace,
trim, and re-append `.lnk` when the input had it and the result lost it.
The script's memoization cache does not affect the value computed. -/
def Normalize_ShortcutName (name : Str) : Str :=
  let n1 := replaceAlls matchArch [] name
  let n2 := replaceAlls matchVer [] n1
  let n3 := replaceAlls matchSetup [] n2
  let n4 := replaceAlls matchWs (str " ") n3
  let n5 := trimStr n4
  if !endsLnk n5 && endsLnk name then n5 ++ str ".lnk" else n5

/-! ### Case-insensitive association lists

PowerShell hashtables compare string keys case-insensitively; they are
modelled as association lists with case-insensitive lookup.  Assigning to an
existing key keeps the originally stored key spelling, as .NET does. -/

/-- Hashtable lookup (`$h[$k]`, `$h.ContainsKey($k)` via `isSome`). -/
def lookupCI {α : Type} : List (Str × α) → Str → Option α
  | [], _ => none
  | (k1, v1) :: r, k => if ceq k1 k then some v1 else lookupCI r k

/-- Hashtable key-membership (`$h.ContainsKey($k)`). -/
abbrev memCI {α : Type} (m : List (Str × α)) (k : Str) : Prop :=
  (lookupCI m k).isSome = true

/-- Hashtable assignment (`$h[$k] = $v`). -/
def putCI {α : Type} : List (Str × α) → Str → α → List (Str × α)
  | [], k, v => [(k, v)]
  | (k1, v1) :: r, k, v =>
    if ceq k1 k then (k1, v) :: r else (k1, v1) :: putCI r k v

/-! ### Config model

The JSON config has the shape folder → shortcut name → property map.  The
property map is kept as the fields read by the script; folder keys use the
string `"Root"` for the Start Menu root, exactly as in the JSON. -/

/-- Saved per-shortcut properties (`TargetPath`, `Arguments`, ...).  A `none`
field models an absent JSON key (whose value reads back as `$null`). -/
structure Details where
  targetPath : Option Str := none
  arguments : Option Str := none
  workingDirectory : Option Str := none
  iconLocation : Option Str := none
  description : Option Str := none
deriving DecidableEq

/-- A parsed config: folder key → list of (shortcut name, details), in JSON
property order. -/
abbrev Config := List (Str × List (Str × Details))

/-- PowerShell truthiness of `$details.TargetPath`: present and non-empty. -/
def truthy : Option Str → Prop
  | some t => t ≠ []
  | none => False

instance : DecidablePred truthy := fun o => by
  cases o with
  | none => exact isFalse (fun h => h)
  | some t => exact inferInstanceAs (Decidable (t ≠ []))

/-- The detail-map key `"$folderKey\$sc"`. -/
def detailKey (folderKey sc : Str) : Str := folderKey ++ '\\' :: sc

/-- Result of `Build_ConfigLookupTable` (lines 583-640). -/
structure ConfigTables where
  /-- normalized name → list of (original name, folder), in config order. -/
  allConfigShortcuts : List (Str × List (Str × Str))
  /-- lookup key (full name for variants, normalized name otherwise) → folder. -/
  expectedMap : List (Str × Str)
  /-- `"$folderKey\$sc"` → saved details, for recreation. -/
  shortcutDetailsMap : List (Str × Details)

/-- The config flattened to (folder, shortcut name, details) triples in
iteration order (the nested `foreach` loops of the script visit exactly this
sequence). -/
def configEntries (cfg : Config) : List (Str × Str × Details) :=
  cfg.foldr (fun fk acc => fk.2.map (fun sc => (fk.1, sc.1, sc.2)) ++ acc) []

/-- All shortcut names appearing in the config. -/
def configNames (cfg : Config) : List Str :=
  (configEntries cfg).map fun e => e.2.1

/-- One step of the first pass of `Build_ConfigLookupTable`. -/
def buildPass1Step (acc : List (Str × List (Str × Str)) × List (Str × Details))
    (e : Str × Str × Details) :
    List (Str × List (Str × Str)) × List (Str × Details) :=
  let norm := Normalize_ShortcutName e.2.1
  let grp := (lookupCI acc.1 norm).getD []
  (putCI acc.1 norm (grp ++ [(e.2.1, e.1)]),
   putCI acc.2 (detailKey e.1 e.2.1) e.2.2)

/-- First pass of `Build_ConfigLookupTable`: group config shortcuts by
normalized name and collect the details map. -/
def buildPass1 (cfg : Config) :
    List (Str × List (Str × Str)) × List (Str × Details) :=
  (configEntries cfg).foldl buildPass1Step ([], [])

/-- One step of the second pass of `Build_ConfigLookupTable`. -/
def buildPass2Step (allCfg : List (Str × List (Str × Str)))
    (em : List (Str × Str)) (e : Str × Str × Details) : List (Str × Str) :=
  let norm := Normalize_ShortcutName e.2.1
  let keyToUse :=
    if ((lookupCI allCfg norm).getD []).length > 1 then e.2.1 else norm
  putCI em keyToUse e.1

/-- Second pass of `Build_ConfigLookupTable`: build the expected-folder map,
keying variants (normalized-name collisions) by their full names and unique
shortcuts by their normalized names. -/
def buildPass2 (cfg : Config) (allCfg : List (Str × List (Str × Str))) :
    List (Str × Str) :=
  (configEntries cfg).foldl (buildPass2Step allCfg) []

/-- `Build_ConfigLookupTable` (lines 583-640), pure part.  The folder
creations it performs on the way are modelled separately for the
mutation-ordering analysis. -/
def Build_ConfigLookupTable (cfg : Config) : ConfigTables :=
  let p1 := buildPass1 cfg
  { allConfigShortcuts := p1.1
    expectedMap := buildPass2 cfg p1.1
    shortcutDetailsMap := p1.2 }

/-- `Get_ShortcutMatchKey` (lines 124-146). -/
def Get_ShortcutMatchKey (shortcutName : Str)
    (allConfigShortcuts : List (Str × List (Str × Str)))
    (expectedMap : List (Str × Str)) : Option Str :=
  let norm := Normalize_ShortcutName shortcutName
  if (match lookupCI allConfigShortcuts norm with
      | some g => decide (g.length > 1)
      | none => false) then
    if memCI expectedMap shortcutName then some shortcutName else none
  else
    if memCI expectedMap norm then some norm
    else if memCI expectedMap shortcutName then some shortcutName
    else none

/-! ### Observed items, paths and planned actions

A filesystem path under the Start Menu root is a pair of a directory (the
relative folder path string, `none` for the root itself) and a file name.
Windows path comparison is case-insensitive; two paths with the same name
component are the same string exactly when their directory components are,
so path string comparisons in the script become `pceq`. -/

/-- A full path under the managed root: relative directory (`none` = root)
plus file name.  An observed shortcut is exactly such a path. -/
structure Path where
  dir : Option Str
  name : Str
deriving DecidableEq

/-- Case-insensitive path equality (Windows `-eq` on full path strings). -/
abbrev pceq (p q : Path) : Prop := odirCeq p.dir q.dir ∧ ceq p.name q.name

/-- `Get_RelativePath` on a directory: the relative folder string, with
`"Root"` for the base folder. -/
def relDisplay (dir : Option Str) : Str := dir.getD (str "Root")

/-- Resolve a config folder key to a directory: `"Root"` (case-insensitive)
or the empty string denote the managed root (lines 833-837, 1177-1181). -/
def resolveFolder (relFolder : Str) : Option Str :=
  if ceq relFolder (str "Root") ∨ relFolder = [] then none else some relFolder

/-- Planned move type tag (the script's `Type` strings). -/
inductive MType
  | move
  | quarantine
deriving DecidableEq

/-- An entry of `$plannedMoves`. -/
structure MoveAction where
  type : MType
  source : Path
  dest : Path
  name : Str
  newName : Option Str := none
  currentFolder : Str
  destFolder : Str
deriving DecidableEq

/-- An entry of `$plannedDeletes`. -/
structure DeleteAction where
  path : Path
  name : Str
  folder : Str
  correctFolder : Str
deriving DecidableEq

/-- An entry of `$missingShortcuts`. -/
structure MissingShortcut where
  name : Str
  folder : Str
  details : Details
deriving DecidableEq

/-- An entry of `$emptyFoldersToDelete`. -/
structure EmptyFolderDel where
  path : Str
  displayFolder : Str
deriving DecidableEq

/-- Accumulated state of the `Scan_AndOrganizeShortcuts` loop. -/
structure ScanState where
  actualIndex : List (Str × Path) := []
  processed : List (Str × Bool) := []
  plannedMoves : List MoveAction := []
  plannedDeletes : List DeleteAction := []
  foldersToCheck : List (Option Str) := []
  quarantineCounter : List (Str × Nat) := []
deriving DecidableEq

/-- Remove the first element satisfying `p`. -/
def removeFirst {α : Type} (p : α → Prop) [DecidablePred p] : List α → List α
  | [] => []
  | x :: r => if p x then r else x :: removeFirst p r

/-- Remove the last element satisfying `p` (the script walks `$plannedMoves`
backwards and `break`s after one `RemoveAt`). -/
def removeLast {α : Type} (p : α → Prop) [DecidablePred p] (l : List α) :
    List α :=
  (removeFirst p l.reverse).reverse

/-- One decimal digit character. -/
def digitChar (n : Nat) : Char := Char.ofNat (48 + n)

/-- Decimal digits of a natural number (fuel-structured). -/
def natDigitsF : Nat → Nat → Str
  | 0, _ => []
  | f + 1, n =>
    if n < 10 then [digitChar n] else natDigitsF f (n / 10) ++ [digitChar (n % 10)]

/-- Decimal digits of a natural number. -/
def natDigits (n : Nat) : Str := natDigitsF (n + 1) n

/-- Index of the last `.` in a file name, if any. -/
def lastDotIdx (s : Str) : Option Nat :=
  match s.reverse.findIdx? (· == '.') with
  | none => none
  | some j => some (s.length - 1 - j)

/-- `GetFileNameWithoutExtension` / `GetExtension` pair: split at the last
dot (a trailing dot yields an empty extension and is dropped). -/
def fileSplit (n : Str) : Str × Str :=
  match lastDotIdx n with
  | none => (n, [])
  | some i => if i = n.length - 1 then (n.take i, []) else (n.take i, n.drop i)

/-- The numbered quarantine name `"$baseName ($number)$extension"`. -/
def numberedName (n : Str) (number : Nat) : Str :=
  (fileSplit n).1 ++ str " (" ++ natDigits number ++ str ")" ++ (fileSplit n).2

/-- Bump `$quarantineCounter[$norm]` and return the new number with the
updated counter map. -/
def bumpCounter (counter : List (Str × Nat)) (norm : Str) :
    Nat × List (Str × Nat) :=
  let number := (lookupCI counter norm).getD 0 + 1
  (number, putCI counter norm number)

/-- Build the planned quarantine move for `it` renamed to `newN` (the
numbered-duplicate case). -/
def mkNumberedQuarantine (qf : Str) (it : Path) (newN : Str) : MoveAction :=
  { type := .quarantine
    source := it
    dest := { dir := some qf, name := newN }
    name := it.name
    newName := some newN
    currentFolder := relDisplay it.dir
    destFolder := qf }

/-- The duplicate-detection index key of a shortcut name: its own full name
when its match key equals it, otherwise its normalized name (lines 670-671). -/
def indexKeyOf (tables : ConfigTables) (nm : Str) : Str :=
  match Get_ShortcutMatchKey nm tables.allConfigShortcuts tables.expectedMap with
  | some mk => if ceq mk nm then nm else Normalize_ShortcutName nm
  | none => Normalize_ShortcutName nm

/-- The correct config folder used by the duplicate branch: from the current
item's match key when it is in the expected map, else from the existing
item's match key (lines 679-685). -/
def dupCorrectFolder (tables : ConfigTables) (matchKey : Option Str)
    (existingName : Str) : Option Str :=
  let fromExisting : Option Str :=
    match Get_ShortcutMatchKey existingName tables.allConfigShortcuts
        tables.expectedMap with
    | some ek =>
      if memCI tables.expectedMap ek then lookupCI tables.expectedMap ek
      else none
    | none => none
  match matchKey with
  | some mk =>
    if memCI tables.expectedMap mk then lookupCI tables.expectedMap mk
    else fromExisting
  | none => fromExisting

/-- The common tail of the scan loop (lines 828-869): record the item in the
index, then plan a move for a known shortcut or a quarantine for an unknown
one. -/
def scanTail (tables : ConfigTables) (qf : Str) (item : Path)
    (matchKey : Option Str) (indexKey : Str) (st1 : ScanState) : ScanState :=
  let st2 := { st1 with actualIndex := putCI st1.actualIndex indexKey item }
  match matchKey with
  | some mk =>
    let relFolder := (lookupCI tables.expectedMap mk).getD []
    let destPath : Path := { dir := resolveFolder relFolder, name := item.name }
    let st3 :=
      if ¬ pceq item destPath then
        { st2 with
          plannedMoves := st2.plannedMoves ++
            [{ type := .move
               source := item
               dest := destPath
               name := item.name
               currentFolder := relDisplay item.dir
               destFolder := relFolder }]
          foldersToCheck := st2.foldersToCheck ++ [item.dir] }
      else st2
    { st3 with processed := putCI st3.processed mk true }
  | none =>
    let qDest : Path := { dir := some qf, name := item.name }
    if ¬ pceq item qDest then
      { st2 with
        plannedMoves := st2.plannedMoves ++
          [{ type := .quarantine
             source := item
             dest := qDest
             name := item.name
             currentFolder := relDisplay item.dir
             destFolder := qf }] }
    else st2

/-- The duplicate branch of the scan loop (lines 674-827), entered when the
index already holds an entry for the item's index key. -/
def scanDup (tables : ConfigTables) (qf : Str) (st : ScanState)
    (item existing : Path) : ScanState :=
  let norm := Normalize_ShortcutName item.name
  let matchKey :=
    Get_ShortcutMatchKey item.name tables.allConfigShortcuts tables.expectedMap
  let indexKey := indexKeyOf tables item.name
  let itemFolder := relDisplay item.dir
  let existingFolder := relDisplay existing.dir
  match dupCorrectFolder tables matchKey existing.name with
  | some cf =>
    if ¬ ceq itemFolder cf ∧ ceq existingFolder cf then
      -- current is wrong, existing is correct: delete current, continue
      { st with
        plannedDeletes := st.plannedDeletes ++
          [{ path := item, name := item.name, folder := itemFolder,
             correctFolder := cf }]
        foldersToCheck := st.foldersToCheck ++ [item.dir] }
    else if ¬ ceq existingFolder cf ∧ ceq itemFolder cf then
      -- existing is wrong, current is correct: drop its planned move,
      -- delete it, update the index, and fall through
      scanTail tables qf item matchKey indexKey
        { st with
          plannedMoves := removeLast (fun m => pceq m.source existing)
            st.plannedMoves
          plannedDeletes := st.plannedDeletes ++
            [{ path := existing, name := existing.name,
               folder := existingFolder, correctFolder := cf }]
          foldersToCheck := st.foldersToCheck ++ [existing.dir]
          actualIndex := putCI st.actualIndex indexKey item }
    else if ceq itemFolder cf ∧ ceq existingFolder cf then
      -- both correct: delete current (keep first found), continue
      { st with
        plannedDeletes := st.plannedDeletes ++
          [{ path := item, name := item.name, folder := itemFolder,
             correctFolder := cf }]
        foldersToCheck := st.foldersToCheck ++ [item.dir] }
    else
      -- both wrong: delete current (keep first found), continue
      { st with
        plannedDeletes := st.plannedDeletes ++
          [{ path := item, name := item.name, folder := itemFolder,
             correctFolder := cf }]
        foldersToCheck := st.foldersToCheck ++ [item.dir] }
  | none =>
    -- both duplicates unknown: quarantine with numbered names
    let itemInQ := odirCeq item.dir (some qf)
    let existingInQ := odirCeq existing.dir (some qf)
    if existingInQ ∧ ¬ itemInQ then
      let bc := bumpCounter st.quarantineCounter norm
      { st with
        quarantineCounter := bc.2
        plannedMoves := st.plannedMoves ++
          [mkNumberedQuarantine qf item (numberedName item.name bc.1)] }
    else if itemInQ ∧ ¬ existingInQ then
      let bc := bumpCounter st.quarantineCounter norm
      scanTail tables qf item matchKey indexKey
        { st with
          quarantineCounter := bc.2
          plannedMoves :=
            removeLast (fun m => pceq m.source existing) st.plannedMoves ++
              [mkNumberedQuarantine qf existing
                (numberedName existing.name bc.1)]
          actualIndex := putCI st.actualIndex indexKey item }
    else
      let bc := bumpCounter st.quarantineCounter norm
      { st with
        quarantineCounter := bc.2
        plannedMoves := st.plannedMoves ++
          [mkNumberedQuarantine qf item (numberedName item.name bc.1)] }

/-- The body of the `foreach ($item in $allShortcuts)` loop of
`Scan_AndOrganizeShortcuts` (lines 663-870), one observed shortcut at a
time.  `qf` is the quarantine folder relative path. -/
def scanStep (tables : ConfigTables) (qf : Str) (st : ScanState)
    (item : Path) : ScanState :=
  let matchKey :=
    Get_ShortcutMatchKey item.name tables.allConfigShortcuts tables.expectedMap
  let indexKey := indexKeyOf tables item.name
  match lookupCI st.actualIndex indexKey with
  | none => scanTail tables qf item matchKey indexKey st
  | some existing => scanDup tables qf st item existing

/-- `Scan_AndOrganizeShortcuts` (lines 642-878) over an observed shortcut
list given in filesystem traversal order. -/
def Scan_AndOrganizeShortcuts (tables : ConfigTables) (qf : Str)
    (allShortcuts : List Path) : ScanState :=
  allShortcuts.foldl (scanStep tables qf) {}

/-- `Detect_MissingShortcuts` (lines 880-920): every expected-map key not
marked processed whose details (looked up under
`"$expectedFolder\$normName"`) carry a truthy `TargetPath` yields one
recreation entry. -/
def missingStep (processed : List (Str × Bool))
    (shortcutDetailsMap : List (Str × Details))
    (acc : List MissingShortcut × List (Str × Bool)) (kv : Str × Str) :
    List MissingShortcut × List (Str × Bool) :=
  if ¬ memCI processed kv.1 then
    if memCI acc.2 (detailKey kv.2 kv.1) then acc
    else
      let seen := putCI acc.2 (detailKey kv.2 kv.1) true
      match lookupCI shortcutDetailsMap (detailKey kv.2 kv.1) with
      | some d =>
        if truthy d.targetPath then
          (acc.1 ++ [{ name := kv.1, folder := kv.2, details := d }], seen)
        else (acc.1, seen)
      | none => (acc.1, seen)
  else acc

def Detect_MissingShortcuts (expectedMap : List (Str × Str))
    (processed : List (Str × Bool))
    (shortcutDetailsMap : List (Str × Details)) : List MissingShortcut :=
  (expectedMap.foldl (missingStep processed shortcutDetailsMap) ([], [])).1

/-! ### Filesystem tree model

The managed tree is the set of folders (relative path strings such as
`"Programs\Dev"`, the root itself not listed) together with the files in
them.  `Get-ChildItem` of a folder lists its immediate files and subfolders. -/

/-- The managed filesystem tree. -/
structure Tree where
  folders : List Str
  files : List Path
deriving DecidableEq

/-- Split a relative folder path at its last backslash: parent directory
(`none` = root) and last segment. -/
def splitParent (g : Str) : Option Str × Str :=
  match g.reverse.findIdx? (· == '\\') with
  | none => (none, g)
  | some j =>
    let i := g.length - 1 - j
    (some (g.take i), g.drop (i + 1))

/-- Parent directory of a folder (`none` = root). -/
def parentOf (g : Str) : Option Str := (splitParent g).1

/-- A subfolder viewed as a path entry of its parent's listing. -/
def folderAsPath (g : Str) : Path :=
  { dir := (splitParent g).1, name := (splitParent g).2 }

/-- Immediate files of folder `f` (`none` = root). -/
def childFiles (t : Tree) (f : Option Str) : List Path :=
  t.files.filter fun p => decide (odirCeq p.dir f)

/-- Immediate subfolders of folder `f` (`none` = root). -/
def childDirs (t : Tree) (f : Option Str) : List Str :=
  t.folders.filter fun g => decide (odirCeq (parentOf g) f)

/-- Number of path separators in a relative folder path; the sort key used
for deepest-first ordering. -/
def depthOf (f : Str) : Nat := (f.filter (· == '\\')).length

/-- Stable insertion for descending-by-depth order. -/
def insDepth (x : Str) : List Str → List Str
  | [] => [x]
  | y :: r => if depthOf x < depthOf y then y :: insDepth x r else x :: y :: r

/-- Stable sort of folders, deepest first (`Sort-Object` is stable). -/
def sortByDepthDesc (l : List Str) : List Str :=
  l.foldr insDepth []

/-- Association lists keyed by optional directories, compared
case-insensitively (used for `$foldersBeingEmptied`). -/
def lookupD {α : Type} : List (Option Str × α) → Option Str → Option α
  | [], _ => none
  | (k1, v1) :: r, k => if odirCeq k1 k then some v1 else lookupD r k

/-- Assignment into a directory-keyed association list. -/
def putD {α : Type} : List (Option Str × α) → Option Str → α → List (Option Str × α)
  | [], k, v => [(k, v)]
  | (k1, v1) :: r, k, v =>
    if odirCeq k1 k then (k1, v) :: r else (k1, v1) :: putD r k v

/-- Case-insensitive membership of a string in a string list. -/
def memC (l : List Str) (f : Str) : Prop := ∃ x ∈ l, ceq x f

instance : ∀ l f, Decidable (memC l f) := fun l f => by
  unfold memC; infer_instance

/-- Case-insensitive membership of a directory in a directory list. -/
def memD (l : List (Option Str)) (d : Option Str) : Prop :=
  ∃ x ∈ l, odirCeq x d

instance : ∀ l d, Decidable (memD l d) := fun l d => by
  unfold memD; infer_instance

/-- The expected (config-listed, non-root) folders that empty-folder
detection preserves. -/
def efExpected (cfg : Config) : List Str :=
  (cfg.map (·.1)).filter fun k => decide (¬ ceq k (str "Root") ∧ k ≠ [])

/-- `$foldersBeingEmptied`: source directory → planned move sources leaving
it (moves and quarantines alike; duplicate deletes are not included). -/
def efEmptied (plannedMoves : List MoveAction) : List (Option Str × List Path) :=
  plannedMoves.foldl
    (fun m mv =>
      putD m mv.source.dir (((lookupD m mv.source.dir).getD []) ++ [mv.source]))
    []

/-- `$foldersReceivingFiles`: directories receiving planned move targets. -/
def efReceiving (plannedMoves : List MoveAction) : List (Option Str) :=
  plannedMoves.map (·.dest.dir)

/-- The will-be-empty test for one folder (lines 980-998): currently empty,
or every current child is a planned move source. -/
def efWillBeEmpty (t : Tree) (emptied : List (Option Str × List Path))
    (f : Str) : Bool :=
  let cf := childFiles t (some f)
  let cd := childDirs t (some f)
  if cf.length + cd.length = 0 then true
  else
    match lookupD emptied (some f) with
    | some movingOut =>
      let allItemPaths := cf ++ cd.map folderAsPath
      decide ((allItemPaths.filter fun p =>
        ¬ movingOut.any fun q => decide (pceq p q)).length = 0)
    | none => false

/-- The complete slating condition of empty-folder detection for one folder:
not config-listed, not receiving planned moves, and will be empty once the
planned moves (only) are applied. -/
def efSlated (cfg : Config) (plannedMoves : List MoveAction) (t : Tree)
    (f : Str) : Prop :=
  ¬ memC (efExpected cfg) f ∧ ¬ memD (efReceiving plannedMoves) (some f) ∧
    efWillBeEmpty t (efEmptied plannedMoves) f = true

instance : ∀ cfg pm t f, Decidable (efSlated cfg pm t f) := fun cfg pm t f => by
  unfold efSlated; infer_instance

/-- One folder's processing in the empty-folder detection loop. -/
def efStep (cfg : Config) (plannedMoves : List MoveAction) (t : Tree)
    (acc : List EmptyFolderDel × List Str) (f : Str) :
    List EmptyFolderDel × List Str :=
  if memC acc.2 f then acc
  else if memC (efExpected cfg) f then acc
  else if memD (efReceiving plannedMoves) (some f) then acc
  else if efWillBeEmpty t (efEmptied plannedMoves) f then
    (acc.1 ++ [{ path := f, displayFolder := f }], acc.2 ++ [f])
  else acc

/-- `Detect_EmptyFolders` (lines 922-1015).  Only the planned moves (which
include quarantines) feed the will-become-empty analysis; planned duplicate
deletes are not passed in.  Folders are visited deepest first. -/
def Detect_EmptyFolders (cfg : Config) (plannedMoves : List MoveAction)
    (t : Tree) : List EmptyFolderDel :=
  ((sortByDepthDesc t.folders).foldl (efStep cfg plannedMoves t) ([], [])).1

/-! ### Folder creation and plan application -/

/-- All ancestors of a folder path (shortest first), ending with the folder
itself; `New-Item -Force` creates the whole chain. -/
def ancestorsOf (f : Str) : List Str :=
  (((List.range f.length).filter fun i => f.get? i = some '\\').map
    fun i => f.take i) ++ [f]

/-- Add a folder (with its ancestors) to a folder list if missing. -/
def addFolder (folders : List Str) (f : Str) : List Str :=
  (ancestorsOf f).foldl
    (fun fs a => if fs.any (fun x => decide (ceq x a)) then fs else fs ++ [a])
    folders

/-- The folder creations `Build_ConfigLookupTable` performs via
`Ensure_Folder` before anything else runs: one per non-root config folder
key not yet present on disk. -/
def configFolderCreations (cfg : Config) (t : Tree) : List Str :=
  (cfg.foldl
    (fun (acc : List Str × List Str) fk =>
      if decide (¬ ceq fk.1 (str "Root") ∧ fk.1 ≠ []) then
        if acc.2.any (fun x => decide (ceq x fk.1)) then acc
        else (acc.1 ++ [fk.1], addFolder acc.2 fk.1)
      else acc)
    ([], t.folders)).1

/-- The tree after `Build_ConfigLookupTable` has ensured every non-root
config folder exists. -/
def ensureConfigFolders (cfg : Config) (t : Tree) : Tree :=
  { t with
    folders := cfg.foldl
      (fun fs fk =>
        if decide (¬ ceq fk.1 (str "Root") ∧ fk.1 ≠ []) then addFolder fs fk.1
        else fs)
      t.folders }

/-- The reconciliation result of one ENFORCE run over an already
folder-ensured tree (`Invoke_EnforceMode`, planning part, lines 1357-1381). -/
structure Plan where
  plannedMoves : List MoveAction
  plannedDeletes : List DeleteAction
  missingShortcuts : List MissingShortcut
  emptyFolders : List EmptyFolderDel
deriving DecidableEq

/-- The shortcut files of the tree in traversal order
(`Get-ChildItem -Recurse -Filter *.lnk -File`). -/
def treeShortcuts (t : Tree) : List Path :=
  t.files.filter fun p => endsLnk p.name

/-- The planning phase of `Invoke_EnforceMode`: lookup tables, scan,
missing-shortcut detection and empty-folder detection. -/
def enforcePlan (cfg : Config) (qf : Str) (t : Tree) : Plan :=
  let tables := Build_ConfigLookupTable cfg
  let sr := Scan_AndOrganizeShortcuts tables qf (treeShortcuts t)
  { plannedMoves := sr.plannedMoves
    plannedDeletes := sr.plannedDeletes
    missingShortcuts :=
      Detect_MissingShortcuts tables.expectedMap sr.processed
        tables.shortcutDetailsMap
    emptyFolders := Detect_EmptyFolders cfg sr.plannedMoves t }

/-- Whether the plan contains any change (line 1380). -/
def hasChanges (p : Plan) : Prop :=
  p.plannedMoves ≠ [] ∨ p.plannedDeletes ≠ [] ∨ p.emptyFolders ≠ [] ∨
    p.missingShortcuts ≠ []

instance : ∀ p, Decidable (hasChanges p) := fun p => by
  unfold hasChanges; infer_instance

/-- Remove the (unique) file at a path. -/
def removeFileAt (t : Tree) (p : Path) : Tree :=
  { t with files := removeFirst (fun q => pceq q p) t.files }

/-- Place a file at a path, overwriting any file already there
(`Move-Item -Force` / `$shortcut.Save()`). -/
def overwriteAdd (t : Tree) (p : Path) : Tree :=
  { t with files := removeFirst (fun q => pceq q p) t.files ++ [p] }

/-- Apply one successful move/quarantine (`Execute_ShortcutMoves` body):
ensure the destination folder, then move with overwrite. -/
def applyMove (t : Tree) (mv : MoveAction) : Tree :=
  let t1 :=
    { t with
      folders := match mv.dest.dir with
        | none => t.folders
        | some d => addFolder t.folders d }
  overwriteAdd (removeFileAt t1 mv.source) mv.dest

/-- Apply one successful recreation (`Execute_ShortcutRecreations` body). -/
def applyRecreate (t : Tree) (ms : MissingShortcut) : Tree :=
  let dirOpt := resolveFolder ms.folder
  let t1 :=
    { t with
      folders := match dirOpt with
        | none => t.folders
        | some d => addFolder t.folders d }
  overwriteAdd t1 { dir := dirOpt, name := ms.name }

/-- Apply one successful duplicate delete (`Execute_ShortcutDeletes` body). -/
def applyDelete (t : Tree) (d : DeleteAction) : Tree :=
  removeFileAt t d.path

/-- Apply one folder delete (`Execute_FolderDeletes` body): the folder is
re-checked for emptiness and only removed when still empty. -/
def applyFolderDelete (t : Tree) (e : EmptyFolderDel) : Tree :=
  if (childFiles t (some e.path)).length + (childDirs t (some e.path)).length = 0
  then { t with folders := removeFirst (fun g => ceq g e.path) t.folders }
  else t

/-- Apply a whole plan with every filesystem operation succeeding, in the
executor's phase order: moves, recreations, quarantines, duplicate deletes,
empty-folder deletes (lines 1410-1439). -/
def applyPlan (t : Tree) (p : Plan) : Tree :=
  let t1 := (p.plannedMoves.filter (·.type = MType.move)).foldl applyMove t
  let t2 := p.missingShortcuts.foldl applyRecreate t1
  let t3 := (p.plannedMoves.filter (·.type = MType.quarantine)).foldl applyMove t2
  let t4 := p.plannedDeletes.foldl applyDelete t3
  p.emptyFolders.foldl applyFolderDelete t4

/-- One complete ENFORCE run with all actions applied successfully: the
folder-ensuring side effect of the lookup-table build, the computed plan,
and the resulting tree. -/
def enforceRun (cfg : Config) (qf : Str) (t0 : Tree) : Plan × Tree :=
  let t1 := ensureConfigFolders cfg t0
  let plan := enforcePlan cfg qf t1
  (plan, applyPlan t1 plan)

/-! ### Mutation/confirmation ordering (ENFORCE mode, interactive)

`Invoke_EnforceMode` is modelled as the sequence of externally visible
events of one interactive run: filesystem mutations and the dry-run
confirmation prompt.  A missing or unparsable config throws before
anything else (line 1358-1360), modelled by `none`. -/

/-- A filesystem mutation performed by ENFORCE mode. -/
inductive Mutation
  | createFolder (f : Str)
  | moveFile (src dst : Path)
  | recreateFile (name folder : Str)
  | deleteFile (p : Path)
  | deleteFolder (f : Str)
deriving DecidableEq

/-- An event of an interactive ENFORCE run. -/
inductive Ev
  | fsMut (m : Mutation)
  | prompt
deriving DecidableEq

/-- Whether an event is a mutation. -/
def Ev.isMut : Ev → Prop
  | .fsMut _ => True
  | .prompt => False

instance : ∀ e, Decidable (Ev.isMut e) := fun e => by
  cases e with
  | fsMut m => exact isTrue trivial
  | prompt => exact isFalse (fun h => h)

/-- The mutation events of executing a confirmed plan, in phase order. -/
def execEvents (p : Plan) : List Ev :=
  ((p.plannedMoves.filter (·.type = MType.move)).map
    fun m => Ev.fsMut (.moveFile m.source m.dest)) ++
  (p.missingShortcuts.map fun m => Ev.fsMut (.recreateFile m.name m.folder)) ++
  ((p.plannedMoves.filter (·.type = MType.quarantine)).map
    fun m => Ev.fsMut (.moveFile m.source m.dest)) ++
  (p.plannedDeletes.map fun d => Ev.fsMut (.deleteFile d.path)) ++
  (p.emptyFolders.map fun e => Ev.fsMut (.deleteFolder e.path))

/-- The event trace of one interactive ENFORCE invocation: `none` for the
config means the invocation throws at the config check and nothing happens;
otherwise the lookup-table build creates missing config folders, the (pure)
scan/reconcile/preview steps run, and — when there are changes — the
confirmation prompt is shown, after which the executor mutates only if the
operator confirmed. -/
def enforceTrace (cfgOpt : Option Config) (qf : Str) (t0 : Tree)
    (confirmed : Bool) : List Ev :=
  match cfgOpt with
  | none => []
  | some cfg =>
    let creations :=
      (configFolderCreations cfg t0).map fun f => Ev.fsMut (.createFolder f)
    let t1 := ensureConfigFolders cfg t0
    let plan := enforcePlan cfg qf t1
    if hasChanges plan then
      creations ++ [Ev.prompt] ++ (if confirmed then execEvents plan else [])
    else creations

/-! ### Executor (best-effort batch semantics)

Success or failure of each filesystem operation is supplied by an oracle;
the executor's control flow (`Execute_*`, lines 1111-1285, called from
`Invoke_EnforceMode` lines 1410-1439) is embedded directly. -/

/-- One attemptable action, as dispatched by the executor. -/
inductive Act
  | move (a : MoveAction)
  | recreate (m : MissingShortcut)
  | del (d : DeleteAction)
  | rmdir (e : EmptyFolderDel)
deriving DecidableEq

/-- Per-operation outcomes of the filesystem, supplied externally. -/
structure Oracle where
  moveOk : MoveAction → Bool
  recreateOk : MissingShortcut → Bool
  deleteOk : DeleteAction → Bool
  stillEmpty : EmptyFolderDel → Bool
  rmdirOk : EmptyFolderDel → Bool

/-- Executor tally and the actions attempted, in order. -/
structure ExecResult where
  succ : Nat
  err : Nat
  attempted : List Act
deriving DecidableEq

/-- `Execute_ShortcutMoves`: each move is attempted; an exception is caught
and counted, and the loop continues. -/
def execMoves (o : Oracle) (ms : List MoveAction) (r : ExecResult) : ExecResult :=
  ms.foldl
    (fun r m =>
      if o.moveOk m then
        { r with succ := r.succ + 1, attempted := r.attempted ++ [Act.move m] }
      else
        { r with err := r.err + 1, attempted := r.attempted ++ [Act.move m] })
    r

/-- `Execute_ShortcutRecreations`. -/
def execRecreations (o : Oracle) (ms : List MissingShortcut) (r : ExecResult) :
    ExecResult :=
  ms.foldl
    (fun r m =>
      if o.recreateOk m then
        { r with succ := r.succ + 1, attempted := r.attempted ++ [Act.recreate m] }
      else
        { r with err := r.err + 1, attempted := r.attempted ++ [Act.recreate m] })
    r

/-- `Execute_ShortcutDeletes`. -/
def execDeletes (o : Oracle) (ds : List DeleteAction) (r : ExecResult) :
    ExecResult :=
  ds.foldl
    (fun r d =>
      if o.deleteOk d then
        { r with succ := r.succ + 1, attempted := r.attempted ++ [Act.del d] }
      else
        { r with err := r.err + 1, attempted := r.attempted ++ [Act.del d] })
    r

/-- `Execute_FolderDeletes`: a folder found non-empty at execution time is
skipped — logged, but counted in neither tally. -/
def execFolderDeletes (o : Oracle) (es : List EmptyFolderDel) (r : ExecResult) :
    ExecResult :=
  es.foldl
    (fun r e =>
      if o.stillEmpty e then
        if o.rmdirOk e then
          { r with succ := r.succ + 1, attempted := r.attempted ++ [Act.rmdir e] }
        else
          { r with err := r.err + 1, attempted := r.attempted ++ [Act.rmdir e] }
      else { r with attempted := r.attempted ++ [Act.rmdir e] })
    r

/-- The execution phase of `Invoke_EnforceMode` (lines 1410-1443): moves,
recreations, quarantines, duplicate deletes, empty-folder deletes. -/
def Execute_Enforce (o : Oracle) (p : Plan) : ExecResult :=
  let r0 : ExecResult := { succ := 0, err := 0, attempted := [] }
  let r1 := execMoves o (p.plannedMoves.filter (·.type = MType.move)) r0
  let r2 := execRecreations o p.missingShortcuts r1
  let r3 := execMoves o (p.plannedMoves.filter (·.type = MType.quarantine)) r2
  let r4 := execDeletes o p.plannedDeletes r3
  execFolderDeletes o p.emptyFolders r4

/-- Total number of planned actions of a plan. -/
def planSize (p : Plan) : Nat :=
  p.plannedMoves.length + p.plannedDeletes.length + p.missingShortcuts.length +
    p.emptyFolders.length

/-! ### Predicates and witnesses used by the claim statements -/

/-- Case-insensitive end-of-string test. -/
def endsCI (suf s : Str) : Prop := low suf <:+ low s

instance : ∀ suf s, Decidable (endsCI suf s) := fun suf s => by
  unfold endsCI; infer_instance

/-- Unknown-item condition at the level of the built lookup tables: the
normalized name has no config group and is no lookup key, and the full name
is no lookup key either. -/
def unknownTab (tables : ConfigTables) (n : Str) : Prop :=
  lookupCI tables.allConfigShortcuts (Normalize_ShortcutName n) = none ∧
  ¬ memCI tables.expectedMap (Normalize_ShortcutName n) ∧
  ¬ memCI tables.expectedMap n

/-- Unknown-item condition at the level of the config itself: neither the
item's normalized name nor its full name matches any config entry's name or
canonical (normalized) name. -/
def unknownName (cfg : Config) (n : Str) : Prop :=
  ∀ e ∈ configNames cfg,
    ¬ ceq (Normalize_ShortcutName n) e ∧
    ¬ ceq (Normalize_ShortcutName n) (Normalize_ShortcutName e) ∧
    ¬ ceq n e ∧ ¬ ceq n (Normalize_ShortcutName e)

/-- Invariant of the scan loop after processing the observed prefix `pre`:
planned actions and index entries originate in `pre`, each path is moved at
most once and never both moved and deleted, the index is keyed consistently
and duplicate-free, and unknown-named items are only ever quarantined. -/
structure ScanInv (tables : ConfigTables) (qf : Str) (pre : List Path)
    (st : ScanState) : Prop where
  movesSrc : ∀ m ∈ st.plannedMoves, ∃ it ∈ pre, m.source = it
  delSrc : ∀ d ∈ st.plannedDeletes, ∃ it ∈ pre, d.path = it
  movesOnce : ∀ p : Path,
    st.plannedMoves.countP (fun m => decide (pceq m.source p)) ≤ 1
  movesDel : ∀ m ∈ st.plannedMoves, ∀ d ∈ st.plannedDeletes,
    ¬ pceq m.source d.path
  idxKey : ∀ kv ∈ st.actualIndex, ceq kv.1 (indexKeyOf tables kv.2.name)
  idxSrc : ∀ kv ∈ st.actualIndex, ∃ it ∈ pre, kv.2 = it
  idxNodup : st.actualIndex.Pairwise (fun a b => ¬ ceq a.1 b.1)
  idxDel : ∀ kv ∈ st.actualIndex, ∀ d ∈ st.plannedDeletes, ¬ pceq kv.2 d.path
  unkMove : ∀ m ∈ st.plannedMoves, unknownTab tables m.source.name →
    m.type = MType.quarantine ∧ m.dest.dir = some qf
  unkDel : ∀ d ∈ st.plannedDeletes, ¬ unknownTab tables d.path.name
  unkWit : ∀ it ∈ pre, unknownTab tables it.name →
    ¬ odirCeq it.dir (some qf) →
    ∃ m ∈ st.plannedMoves, m.source = it ∧ m.type = MType.quarantine ∧
      m.dest.dir = some qf

/-- Recursive rendering of the `Detect_MissingShortcuts` loop, used to
characterize its output. -/
def missingAux (processed : List (Str × Bool)) (det : List (Str × Details)) :
    List (Str × Str) → List (Str × Bool) → List MissingShortcut
  | [], _ => []
  | kv :: r, seen =>
    if ¬ memCI processed kv.1 then
      if memCI seen (detailKey kv.2 kv.1) then missingAux processed det r seen
      else
        let seen2 := putCI seen (detailKey kv.2 kv.1) true
        match lookupCI det (detailKey kv.2 kv.1) with
        | some d =>
          if truthy d.targetPath then
            { name := kv.1, folder := kv.2, details := d } ::
              missingAux processed det r seen2
          else missingAux processed det r seen2
        | none => missingAux processed det r seen2
    else missingAux processed det r seen

/-! ### Concrete inputs used by counterexamples and witnesses -/

/-- A config with one unique entry whose normalized form (`"A (Beta).lnk"`)
is itself the name of no entry, next to a two-variant group for the
canonical key `"A.lnk"`. -/
def cfgVariantShadow : Config :=
  [(str "F1", [(str "A (Be2ta).lnk", {})]),
   (str "F2", [(str "A v1.lnk", {}), (str "A v2.lnk", {})])]

/-- A config with a single unique, recreatable entry whose stored name
(`"A v1.lnk"`) differs from its canonical key (`"A.lnk"`). -/
def cfgVersionedUnique : Config :=
  [(str "F", [(str "A v1.lnk", { targetPath := some (str "T") })])]

/-- A minimal config with one entry in folder `F`. -/
def cfgOneEntry : Config := [(str "F", [(str "A.lnk", {})])]

/-- A tree whose folder `G` holds only a shortcut that reconciliation slates
for duplicate deletion. -/
def treeDupDelete : Tree :=
  { folders := [str "F", str "G"],
    files := [{ dir := some (str "F"), name := str "A.lnk" },
              { dir := some (str "G"), name := str "A v2.lnk" }] }

/-- A config with one recreatable entry in folder `F`. -/
def cfgRecreatable : Config :=
  [(str "F", [(str "A.lnk", { targetPath := some (str "T") })])]

/-- A tree with the configured shortcut in place and a nested chain of two
unconfigured folders of which only the inner one is empty. -/
def treeNested : Tree :=
  { folders := [str "F", str "X", str "X\\Y"],
    files := [{ dir := some (str "F"), name := str "A.lnk" }] }

/-- The empty tree. -/
def treeBare : Tree := { folders := [], files := [] }

/-- The default quarantine folder of the script. -/
def qUnsorted : Str := str "Programs\\Unsorted"

/-- A plan holding exactly one empty-folder delete. -/
def planOneFolderDel : Plan :=
  { plannedMoves := [], plannedDeletes := [], missingShortcuts := [],
    emptyFolders := [{ path := str "X", displayFolder := str "X" }] }

/-- An oracle under which every operation succeeds but every slated folder
is found non-empty at execution time. -/
def oracleSkipAll : Oracle :=
  { moveOk := fun _ => true, recreateOk := fun _ => true,
    deleteOk := fun _ => true, stillEmpty := fun _ => false,
    rmdirOk := fun _ => true }

/-! ## Lemmas

Basic facts about the case-insensitive maps and list helpers. -/

theorem lookupCI_congr {α : Type} (m : List (Str × α)) {k q : Str}
    (h : ceq k q) : lookupCI m k = lookupCI m q := by
  induction m with
  | nil => rfl
  | cons kv r ih =>
    unfold lookupCI
    by_cases h1 : ceq kv.1 k
    · rw [if_pos h1, if_pos (h1.trans h)]
    · rw [if_neg h1, if_neg (fun h2 => h1 (h2.trans h.symm)), ih]

theorem lookupCI_some_mem {α : Type} {m : List (Str × α)} {q : Str} {v : α}
    (h : lookupCI m q = some v) : ∃ k, (k, v) ∈ m ∧ ceq k q := by
  induction m with
  | nil => simp [lookupCI] at h
  | cons kv r ih =>
    unfold lookupCI at h
    by_cases h1 : ceq kv.1 q
    · rw [if_pos h1] at h
      exact ⟨kv.1, by simp [← Option.some_inj.mp h], h1⟩
    · rw [if_neg h1] at h
      obtain ⟨k, hk, hceq⟩ := ih h
      exact ⟨k, List.mem_cons_of_mem _ hk, hceq⟩

theorem memCI_mem {α : Type} {m : List (Str × α)} {q : Str}
    (h : memCI m q) : ∃ kv, kv ∈ m ∧ ceq kv.1 q := by
  unfold memCI at h
  cases hv : lookupCI m q with
  | none => rw [hv] at h; simp at h
  | some v =>
    obtain ⟨k, hk, hc⟩ := lookupCI_some_mem hv
    exact ⟨(k, v), hk, hc⟩

theorem memCI_congr {α : Type} (m : List (Str × α)) {k q : Str}
    (h : ceq k q) : memCI m k ↔ memCI m q := by
  unfold memCI; rw [lookupCI_congr m h]

theorem lookupCI_putCI_eq {α : Type} (m : List (Str × α)) {k q : Str} (v : α)
    (h : ceq k q) : lookupCI (putCI m k v) q = some v := by
  induction m with
  | nil => simp [putCI, lookupCI, if_pos h]
  | cons kv r ih =>
    unfold putCI
    by_cases h1 : ceq kv.1 k
    · rw [if_pos h1]; unfold lookupCI; rw [if_pos (h1.trans h)]
    · rw [if_neg h1]; unfold lookupCI
      rw [if_neg (fun h2 => h1 (h2.trans h.symm)), ih]

theorem lookupCI_putCI_ne {α : Type} (m : List (Str × α)) {k q : Str} (v : α)
    (h : ¬ ceq k q) : lookupCI (putCI m k v) q = lookupCI m q := by
  induction m with
  | nil => simp [putCI, lookupCI, if_neg h]
  | cons kv r ih =>
    unfold putCI
    by_cases h1 : ceq kv.1 k
    · rw [if_pos h1]; unfold lookupCI
      rw [if_neg (fun h2 => h (h1.symm.trans h2)), if_neg (fun h2 => h (h1.symm.trans h2))]
    · rw [if_neg h1]; unfold lookupCI
      by_cases h2 : ceq kv.1 q
      · rw [if_pos h2, if_pos h2]
      · rw [if_neg h2, if_neg h2, ih]

theorem mem_putCI {α : Type} {m : List (Str × α)} {k : Str} {v : α} {kv : Str × α}
    (h : kv ∈ putCI m k v) : kv ∈ m ∨ (ceq kv.1 k ∧ kv.2 = v) := by
  induction m with
  | nil =>
    simp [putCI] at h
    subst h; exact Or.inr ⟨Eq.refl _, rfl⟩
  | cons kv1 r ih =>
    unfold putCI at h
    by_cases h1 : ceq kv1.1 k
    · rw [if_pos h1] at h
      rcases List.mem_cons.mp h with h2 | h2
      · subst h2; exact Or.inr ⟨h1, rfl⟩
      · exact Or.inl (List.mem_cons_of_mem _ h2)
    · rw [if_neg h1] at h
      rcases List.mem_cons.mp h with h2 | h2
      · exact Or.inl (List.mem_cons.mpr (Or.inl h2))
      · rcases ih h2 with h3 | h3
        · exact Or.inl (List.mem_cons_of_mem _ h3)
        · exact Or.inr h3

theorem removeFirst_sublist {α : Type} (p : α → Prop) [DecidablePred p]
    (l : List α) : List.Sublist (removeFirst p l) l := by
  induction l with
  | nil => simp [removeFirst]
  | cons x r ih =>
    unfold removeFirst
    by_cases h : p x
    · rw [if_pos h]; exact List.sublist_cons_self x r
    · rw [if_neg h]; exact List.Sublist.cons₂ x ih

theorem removeLast_sublist {α : Type} (p : α → Prop) [DecidablePred p]
    (l : List α) : List.Sublist (removeLast p l) l := by
  have h := (removeFirst_sublist p l.reverse).reverse
  rwa [List.reverse_reverse] at h

theorem removeLast_mem {α : Type} {p : α → Prop} [DecidablePred p]
    {l : List α} {a : α} (h : a ∈ removeLast p l) : a ∈ l :=
  (removeLast_sublist p l).mem h

theorem removeFirst_countP {α : Type} (p : α → Prop) [DecidablePred p]
    (l : List α) (h : l.countP (fun a => decide (p a)) ≤ 1) :
    ∀ a ∈ removeFirst p l, ¬ p a := by
  induction l with
  | nil => intro a ha; simp [removeFirst] at ha
  | cons x r ih =>
    intro a ha
    unfold removeFirst at ha
    by_cases hx : p x
    · rw [if_pos hx] at ha
      rw [List.countP_cons_of_pos _ _ (by simpa using hx)] at h
      have h0 : r.countP (fun a => decide (p a)) = 0 := by omega
      have := List.countP_eq_zero.mp h0 a ha
      simpa using this
    · rw [if_neg hx] at ha
      rcases List.mem_cons.mp ha with h2 | h2
      · subst h2; exact hx
      · rw [List.countP_cons_of_neg _ _ (by simpa using hx)] at h
        exact ih h a h2

theorem removeLast_countP {α : Type} (p : α → Prop) [DecidablePred p]
    (l : List α) (h : l.countP (fun a => decide (p a)) ≤ 1) :
    ∀ a ∈ removeLast p l, ¬ p a := by
  intro a ha
  unfold removeLast at ha
  have ha2 := List.mem_reverse.mp ha
  refine removeFirst_countP p l.reverse ?_ a ha2
  rwa [List.countP_reverse]

/-! ### Keys of the built lookup tables -/

theorem pass1_keys_aux (l : List (Str × Str × Details))
    (acc : List (Str × List (Str × Str)) × List (Str × Details)) :
    ∀ kv ∈ (l.foldl buildPass1Step acc).1,
      kv ∈ acc.1 ∨ ∃ e ∈ l, ceq kv.1 (Normalize_ShortcutName e.2.1) := by
  induction l generalizing acc with
  | nil => intro kv h; exact Or.inl h
  | cons x r ih =>
    intro kv h
    rw [List.foldl_cons] at h
    rcases ih (buildPass1Step acc x) kv h with h1 | h1
    · rcases mem_putCI h1 with h2 | h2
      · exact Or.inl h2
      · exact Or.inr ⟨x, List.mem_cons_self x r, h2.1⟩
    · obtain ⟨e, he, hc⟩ := h1
      exact Or.inr ⟨e, List.mem_cons_of_mem _ he, hc⟩

theorem pass1_keys {cfg : Config} {kv : Str × List (Str × Str)}
    (h : kv ∈ (buildPass1 cfg).1) :
    ∃ e ∈ configEntries cfg, ceq kv.1 (Normalize_ShortcutName e.2.1) := by
  rcases pass1_keys_aux (configEntries cfg) ([], []) kv h with h1 | h1
  · simp at h1
  · exact h1

theorem pass2_keys_aux (allCfg : List (Str × List (Str × Str)))
    (l : List (Str × Str × Details)) (acc : List (Str × Str)) :
    ∀ kv ∈ l.foldl (buildPass2Step allCfg) acc,
      kv ∈ acc ∨ ∃ e ∈ l, ceq kv.1 e.2.1 ∨ ceq kv.1 (Normalize_ShortcutName e.2.1) := by
  induction l generalizing acc with
  | nil => intro kv h; exact Or.inl h
  | cons x r ih =>
    intro kv h
    rw [List.foldl_cons] at h
    rcases ih (buildPass2Step allCfg acc x) kv h with h1 | h1
    · rcases mem_putCI h1 with h2 | h2
      · exact Or.inl h2
      · refine Or.inr ⟨x, List.mem_cons_self x r, ?_⟩
        by_cases hv : ((lookupCI allCfg (Normalize_ShortcutName x.2.1)).getD []).length > 1
        · rw [if_pos hv] at h2; exact Or.inl h2.1
        · rw [if_neg hv] at h2; exact Or.inr h2.1
    · obtain ⟨e, he, hc⟩ := h1
      exact Or.inr ⟨e, List.mem_cons_of_mem _ he, hc⟩

theorem pass2_keys {cfg : Config} {allCfg : List (Str × List (Str × Str))}
    {kv : Str × Str} (h : kv ∈ buildPass2 cfg allCfg) :
    ∃ e ∈ configEntries cfg,
      ceq kv.1 e.2.1 ∨ ceq kv.1 (Normalize_ShortcutName e.2.1) := by
  rcases pass2_keys_aux allCfg (configEntries cfg) [] kv h with h1 | h1
  · simp at h1
  · exact h1

/-- The entry-level unknown-item condition implies the table-level one. -/
theorem unknownName_tab {cfg : Config} {n : Str} (h : unknownName cfg n) :
    unknownTab (Build_ConfigLookupTable cfg) n := by
  have hname : ∀ e ∈ configEntries cfg, e.2.1 ∈ configNames cfg := by
    intro e he
    exact List.mem_map_of_mem (fun e => e.2.1) he
  refine ⟨?_, ?_, ?_⟩
  · cases hv : lookupCI (Build_ConfigLookupTable cfg).allConfigShortcuts
        (Normalize_ShortcutName n) with
    | none => rfl
    | some g =>
      obtain ⟨k, hk, hc⟩ := lookupCI_some_mem hv
      obtain ⟨e, he, hek⟩ := pass1_keys hk
      exact absurd (hc.symm.trans hek) (h e.2.1 (hname e he)).2.1
  · intro hm
    obtain ⟨kv, hkv, hc⟩ := memCI_mem hm
    obtain ⟨e, he, hek⟩ := pass2_keys hkv
    rcases hek with h1 | h1
    · exact (h e.2.1 (hname e he)).1 (hc.symm.trans h1)
    · exact (h e.2.1 (hname e he)).2.1 (hc.symm.trans h1)
  · intro hm
    obtain ⟨kv, hkv, hc⟩ := memCI_mem hm
    obtain ⟨e, he, hek⟩ := pass2_keys hkv
    rcases hek with h1 | h1
    · exact (h e.2.1 (hname e he)).2.2.1 (hc.symm.trans h1)
    · exact (h e.2.1 (hname e he)).2.2.2 (hc.symm.trans h1)

/-! ### Match-key facts -/

/-- An unknown item resolves no match key. -/
theorem matchKey_none {tables : ConfigTables} {n : Str} (h : unknownTab tables n) :
    Get_ShortcutMatchKey n tables.allConfigShortcuts tables.expectedMap = none := by
  simp [Get_ShortcutMatchKey, h.1, h.2.1, h.2.2]

/-- Any resolved match key is an expected-map key and is the item's own name
or its normalized name. -/
theorem matchKey_some {tables : ConfigTables} {n mk : Str}
    (h : Get_ShortcutMatchKey n tables.allConfigShortcuts tables.expectedMap =
      some mk) :
    memCI tables.expectedMap mk ∧
      (mk = n ∨ mk = Normalize_ShortcutName n) := by
  unfold Get_ShortcutMatchKey at h
  by_cases hv : (match lookupCI tables.allConfigShortcuts
      (Normalize_ShortcutName n) with
    | some g => decide (g.length > 1)
    | none => false) = true
  · rw [if_pos hv] at h
    by_cases hm : memCI tables.expectedMap n
    · rw [if_pos hm] at h
      exact ⟨by rwa [← Option.some_inj.mp h], Or.inl (Option.some_inj.mp h).symm⟩
    · rw [if_neg hm] at h; simp at h
  · rw [if_neg hv] at h
    by_cases hm1 : memCI tables.expectedMap (Normalize_ShortcutName n)
    · rw [if_pos hm1] at h
      exact ⟨by rwa [← Option.some_inj.mp h], Or.inr (Option.some_inj.mp h).symm⟩
    · rw [if_neg hm1] at h
      by_cases hm2 : memCI tables.expectedMap n
      · rw [if_pos hm2] at h
        exact ⟨by rwa [← Option.some_inj.mp h], Or.inl (Option.some_inj.mp h).symm⟩
      · rw [if_neg hm2] at h; simp at h

/-- The index key of an unknown item is its normalized name. -/
theorem indexKeyOf_unknown {tables : ConfigTables} {n : Str}
    (h : unknownTab tables n) :
    indexKeyOf tables n = Normalize_ShortcutName n := by
  unfold indexKeyOf
  rw [matchKey_none h]

/-- The index key of an item with a resolved match key. -/
theorem indexKeyOf_some {tables : ConfigTables} {nm mk : Str}
    (hmk : Get_ShortcutMatchKey nm tables.allConfigShortcuts
      tables.expectedMap = some mk) :
    indexKeyOf tables nm =
      if ceq mk nm then nm else Normalize_ShortcutName nm := by
  unfold indexKeyOf; rw [hmk]

/-- If an item's index key class contains the normalized name of an unknown
item, the item resolves no match key. -/
theorem matchKey_none_of_indexKey_ceq {tables : ConfigTables} {n nm : Str}
    (h : unknownTab tables n)
    (hk : ceq (indexKeyOf tables nm) (Normalize_ShortcutName n)) :
    Get_ShortcutMatchKey nm tables.allConfigShortcuts tables.expectedMap =
      none := by
  cases hmk : Get_ShortcutMatchKey nm tables.allConfigShortcuts
      tables.expectedMap with
  | none => rfl
  | some mk =>
    exfalso
    have hmem := (matchKey_some hmk).1
    rw [indexKeyOf_some hmk] at hk
    by_cases hq : ceq mk nm
    · rw [if_pos hq] at hk
      exact h.2.1 ((memCI_congr _ (hq.trans hk)).mp hmem)
    · rw [if_neg hq] at hk
      rcases (matchKey_some hmk).2 with h1 | h1
      · exact hq (h1 ▸ Eq.refl _)
      · subst h1
        exact h.2.1 ((memCI_congr _ hk).mp hmem)

/-! ### The trailing `- Setup` strip (C8) -/

/-- The end-anchored `\s+-\s+Setup$` pattern only matches text that ends in
`Setup`. -/
theorem matchSetup_ends {s : Str} {n : Nat} (h : matchSetup s = some n) :
    endsCI (str "Setup") s := by
  simp only [matchSetup] at h
  split at h
  · simp at h
  · split at h
    · next r heq =>
      split at h
      · simp at h
      · split at h
        · next h3 =>
          have hsuffix : (r.drop (wsRun r)) <:+ s := by
            have hr : r <:+ s := by
              have hds := List.drop_suffix (wsRun s) s
              rw [heq] at hds
              exact (List.suffix_cons '-' r).trans hds
            exact (List.drop_suffix (wsRun r) r).trans hr
          unfold endsCI
          rw [← h3]
          exact hsuffix.map lc
        · simp at h
    · simp at h

/-- Global replacement is the identity when the pattern matches at no
suffix of the input. -/
theorem replaceAllF_id {m : Str → Option Nat} {repl : Str} (f : Nat) (s : Str)
    (h : ∀ t, t <:+ s → m t = none) : replaceAllF m repl f s = s := by
  induction f generalizing s with
  | zero => rfl
  | succ f ih =>
    cases s with
    | nil => rfl
    | cons c rest =>
      unfold replaceAllF
      rw [h (c :: rest) List.suffix_rfl]
      rw [ih rest (fun t ht => h t (ht.trans (List.suffix_cons c rest)))]

/-- The `- Setup` stage leaves any name unchanged unless the name literally
ends in `Setup`. -/
theorem setup_stage_id {s : Str} (h : ¬ endsCI (str "Setup") s) :
    replaceAlls matchSetup [] s = s := by
  apply replaceAllF_id
  intro t ht
  cases hm : matchSetup t with
  | none => rfl
  | some n =>
    exact absurd ((matchSetup_ends hm).trans (ht.map lc)) h

/-! ### Executor fold characterizations (C9) -/

theorem execMoves_spec (o : Oracle) (ms : List MoveAction) (r : ExecResult) :
    execMoves o ms r =
      { succ := r.succ + ms.countP (fun m => o.moveOk m),
        err := r.err + ms.countP (fun m => !o.moveOk m),
        attempted := r.attempted ++ ms.map Act.move } := by
  induction ms generalizing r with
  | nil => simp [execMoves]
  | cons m ms ih =>
    unfold execMoves at ih ⊢
    rw [List.foldl_cons]
    by_cases h : o.moveOk m = true
    · rw [if_pos h, ih]
      simp [List.countP_cons, h]
      omega
    · rw [if_neg h, ih]
      simp only [Bool.not_eq_true] at h
      simp [List.countP_cons, h]
      omega

theorem execRecreations_spec (o : Oracle) (ms : List MissingShortcut)
    (r : ExecResult) :
    execRecreations o ms r =
      { succ := r.succ + ms.countP (fun m => o.recreateOk m),
        err := r.err + ms.countP (fun m => !o.recreateOk m),
        attempted := r.attempted ++ ms.map Act.recreate } := by
  induction ms generalizing r with
  | nil => simp [execRecreations]
  | cons m ms ih =>
    unfold execRecreations at ih ⊢
    rw [List.foldl_cons]
    by_cases h : o.recreateOk m = true
    · rw [if_pos h, ih]
      simp [List.countP_cons, h]
      omega
    · rw [if_neg h, ih]
      simp only [Bool.not_eq_true] at h
      simp [List.countP_cons, h]
      omega

theorem execDeletes_spec (o : Oracle) (ds : List DeleteAction) (r : ExecResult) :
    execDeletes o ds r =
      { succ := r.succ + ds.countP (fun d => o.deleteOk d),
        err := r.err + ds.countP (fun d => !o.deleteOk d),
        attempted := r.attempted ++ ds.map Act.del } := by
  induction ds generalizing r with
  | nil => simp [execDeletes]
  | cons d ds ih =>
    unfold execDeletes at ih ⊢
    rw [List.foldl_cons]
    by_cases h : o.deleteOk d = true
    · rw [if_pos h, ih]
      simp [List.countP_cons, h]
      omega
    · rw [if_neg h, ih]
      simp only [Bool.not_eq_true] at h
      simp [List.countP_cons, h]
      omega

theorem execFolderDeletes_spec (o : Oracle) (es : List EmptyFolderDel)
    (r : ExecResult) :
    execFolderDeletes o es r =
      { succ := r.succ + es.countP (fun e => o.stillEmpty e && o.rmdirOk e),
        err := r.err + es.countP (fun e => o.stillEmpty e && !o.rmdirOk e),
        attempted := r.attempted ++ es.map Act.rmdir } := by
  induction es generalizing r with
  | nil => simp [execFolderDeletes]
  | cons e es ih =>
    unfold execFolderDeletes at ih ⊢
    rw [List.foldl_cons]
    by_cases h1 : o.stillEmpty e = true
    · rw [if_pos h1]
      by_cases h2 : o.rmdirOk e = true
      · rw [if_pos h2, ih]
        simp [List.countP_cons, h1, h2]
        omega
      · rw [if_neg h2, ih]
        simp only [Bool.not_eq_true] at h2
        simp [List.countP_cons, h1, h2]
        omega
    · rw [if_neg h1, ih]
      simp only [Bool.not_eq_true] at h1
      simp [List.countP_cons, h1]

theorem countP_and_split {α : Type} (l : List α) (a b : α → Bool) :
    l.countP (fun x => a x && b x) + l.countP (fun x => a x && !b x) =
      l.countP a := by
  induction l with
  | nil => simp
  | cons x r ih =>
    simp only [List.countP_cons]
    cases ha : a x <;> cases hb : b x <;> simp [ha, hb] <;> omega

theorem countP_true_add_false {α : Type} (l : List α) (a : α → Bool) :
    l.countP a + l.countP (fun x => !a x) = l.length := by
  induction l with
  | nil => simp
  | cons x r ih =>
    simp only [List.countP_cons]
    cases ha : a x <;> simp [ha] <;> omega

theorem moves_type_split (l : List MoveAction) :
    (l.filter (·.type = MType.move)).length +
      (l.filter (·.type = MType.quarantine)).length = l.length := by
  induction l with
  | nil => simp
  | cons m r ih =>
    cases hm : m.type <;> simp [List.filter_cons, hm] <;> omega

/-! ## Claim theorems -/

/-- C8 (counterexample): the claim asserts that a name ending in
`"- Setup.lnk"` loses its `"- Setup"` part; on the code,
`Normalize_ShortcutName "Foo - Setup.lnk"` is unchanged — it still ends in
`"- Setup.lnk"` and differs from `"Foo.lnk"`. -/
theorem C8_counterexample :
    Normalize_ShortcutName (str "Foo - Setup.lnk") = str "Foo - Setup.lnk" ∧
    Normalize_ShortcutName (str "Foo - Setup.lnk") ≠ str "Foo.lnk" ∧
    endsCI (str "- Setup.lnk") (Normalize_ShortcutName (str "Foo - Setup.lnk")) := by
  refine ⟨by decide, by decide, by decide⟩

/-- C8 (amended): `normalize` strips, in order, (a) the parenthesized
qualifiers, (b) version tokens, (c) a trailing `- Setup`, (d) collapses
whitespace runs, (e) trims, and re-appends `.lnk` when the input had it and
the result lost it; but the `- Setup` strip fires only when `Setup` stands
at the very end of the string, so a name ending in `"- Setup.lnk"` keeps
its `"- Setup"` part while one ending in `"- Setup"` loses it. -/
theorem C8_amended_thm :
    (∀ name, Normalize_ShortcutName name =
      (let n5 := trimStr (replaceAlls matchWs (str " ")
        (replaceAlls matchSetup [] (replaceAlls matchVer []
          (replaceAlls matchArch [] name))));
       if !endsLnk n5 && endsLnk name then n5 ++ str ".lnk" else n5)) ∧
    (∀ s, ¬ endsCI (str "Setup") s → replaceAlls matchSetup [] s = s) ∧
    Normalize_ShortcutName (str "Foo - Setup") = str "Foo" ∧
    Normalize_ShortcutName (str "Foo - Setup.lnk") = str "Foo - Setup.lnk" := by
  refine ⟨fun name => rfl, fun s h => setup_stage_id h, by decide, by decide⟩

/-- C8 (witness): the amended theorem's conditional part applied at a
concrete input. -/
theorem C8_witness :
    ¬ endsCI (str "Setup") (str "Chrome.lnk") ∧
    replaceAlls matchSetup [] (str "Chrome.lnk") = str "Chrome.lnk" :=
  ⟨by decide, C8_amended_thm.2.1 (str "Chrome.lnk") (by decide)⟩

/-- C9 (counterexample): the claim asserts that the final result is a full
success/error count over all actions; a plan holding one empty-folder
delete whose folder is found non-empty at execution time yields zero
successes and zero errors over one action. -/
theorem C9_counterexample :
    (Execute_Enforce oracleSkipAll planOneFolderDel).succ = 0 ∧
    (Execute_Enforce oracleSkipAll planOneFolderDel).err = 0 ∧
    planSize planOneFolderDel = 1 ∧
    (Execute_Enforce oracleSkipAll planOneFolderDel).attempted.length = 1 := by
  refine ⟨by decide, by decide, by decide, by decide⟩

/-- C9 (amended): for every action list and every outcome oracle, the
executor attempts every action exactly once in the fixed phase order
(moves, recreations, quarantines, duplicate deletes, empty-folder deletes),
independently of any failures; each failed operation is counted in the
error tally and each successful one in the success tally, and the two
tallies cover all actions except empty-folder deletes skipped because the
folder was found non-empty at execution time. -/
theorem C9_amended_thm (o : Oracle) (p : Plan) :
    (Execute_Enforce o p).attempted =
      (p.plannedMoves.filter (·.type = MType.move)).map Act.move ++
      p.missingShortcuts.map Act.recreate ++
      (p.plannedMoves.filter (·.type = MType.quarantine)).map Act.move ++
      p.plannedDeletes.map Act.del ++
      p.emptyFolders.map Act.rmdir ∧
    (Execute_Enforce o p).attempted.length = planSize p ∧
    (Execute_Enforce o p).succ =
      (p.plannedMoves.filter (·.type = MType.move)).countP (fun m => o.moveOk m) +
      p.missingShortcuts.countP (fun m => o.recreateOk m) +
      (p.plannedMoves.filter (·.type = MType.quarantine)).countP (fun m => o.moveOk m) +
      p.plannedDeletes.countP (fun d => o.deleteOk d) +
      p.emptyFolders.countP (fun e => o.stillEmpty e && o.rmdirOk e) ∧
    (Execute_Enforce o p).err =
      (p.plannedMoves.filter (·.type = MType.move)).countP (fun m => !o.moveOk m) +
      p.missingShortcuts.countP (fun m => !o.recreateOk m) +
      (p.plannedMoves.filter (·.type = MType.quarantine)).countP (fun m => !o.moveOk m) +
      p.plannedDeletes.countP (fun d => !o.deleteOk d) +
      p.emptyFolders.countP (fun e => o.stillEmpty e && !o.rmdirOk e) ∧
    (Execute_Enforce o p).succ + (Execute_Enforce o p).err +
      p.emptyFolders.countP (fun e => !o.stillEmpty e) = planSize p := by
  have hE : Execute_Enforce o p =
      { succ := (p.plannedMoves.filter (·.type = MType.move)).countP (fun m => o.moveOk m) +
          p.missingShortcuts.countP (fun m => o.recreateOk m) +
          (p.plannedMoves.filter (·.type = MType.quarantine)).countP (fun m => o.moveOk m) +
          p.plannedDeletes.countP (fun d => o.deleteOk d) +
          p.emptyFolders.countP (fun e => o.stillEmpty e && o.rmdirOk e),
        err := (p.plannedMoves.filter (·.type = MType.move)).countP (fun m => !o.moveOk m) +
          p.missingShortcuts.countP (fun m => !o.recreateOk m) +
          (p.plannedMoves.filter (·.type = MType.quarantine)).countP (fun m => !o.moveOk m) +
          p.plannedDeletes.countP (fun d => !o.deleteOk d) +
          p.emptyFolders.countP (fun e => o.stillEmpty e && !o.rmdirOk e),
        attempted :=
          (p.plannedMoves.filter (·.type = MType.move)).map Act.move ++
          p.missingShortcuts.map Act.recreate ++
          (p.plannedMoves.filter (·.type = MType.quarantine)).map Act.move ++
          p.plannedDeletes.map Act.del ++
          p.emptyFolders.map Act.rmdir } := by
    simp only [Execute_Enforce]
    rw [execMoves_spec, execRecreations_spec, execMoves_spec, execDeletes_spec,
      execFolderDeletes_spec]
    simp [List.append_assoc]
  rw [hE]
  refine ⟨rfl, ?_, rfl, rfl, ?_⟩
  · simp only [List.length_append, List.length_map]
    unfold planSize
    have := moves_type_split p.plannedMoves
    omega
  · simp only
    have h1 := countP_true_add_false (p.plannedMoves.filter (·.type = MType.move))
      (fun m => o.moveOk m)
    have h2 := countP_true_add_false p.missingShortcuts (fun m => o.recreateOk m)
    have h3 := countP_true_add_false
      (p.plannedMoves.filter (·.type = MType.quarantine)) (fun m => o.moveOk m)
    have h4 := countP_true_add_false p.plannedDeletes (fun d => o.deleteOk d)
    have h5 := countP_and_split p.emptyFolders (fun e => o.stillEmpty e)
      (fun e => o.rmdirOk e)
    have h6 := countP_true_add_false p.emptyFolders (fun e => o.stillEmpty e)
    have h7 := moves_type_split p.plannedMoves
    unfold planSize
    omega

/-- C5 (counterexample): the canonical key `"A.lnk"` has exactly two config
entries (`"A v1.lnk"`, `"A v2.lnk"`); the observed name `"A (Beta).lnk"`
normalizes to `"A.lnk"` and equals neither variant's recorded full name,
yet it resolves a match key (it happens to be the lookup key of the
unrelated unique entry `"A (Be2ta).lnk"`), contradicting the claim that the
match key would be null. -/
theorem C5_counterexample :
    Normalize_ShortcutName (str "A (Beta).lnk") = str "A.lnk" ∧
    ((lookupCI (Build_ConfigLookupTable cfgVariantShadow).allConfigShortcuts
      (str "A.lnk")).getD []).length = 2 ∧
    ((lookupCI (Build_ConfigLookupTable cfgVariantShadow).allConfigShortcuts
      (str "A.lnk")).getD []).all
        (fun v => !decide (ceq (str "A (Beta).lnk") v.1)) = true ∧
    Get_ShortcutMatchKey (str "A (Beta).lnk")
      (Build_ConfigLookupTable cfgVariantShadow).allConfigShortcuts
      (Build_ConfigLookupTable cfgVariantShadow).expectedMap =
      some (str "A (Beta).lnk") := by
  refine ⟨by decide, by decide, by decide, by decide⟩

/-- C5 (amended): for an observed item whose normalized name has two or
more config variants, the match key is the item's own full name exactly
when that full name is present in the expected-folder lookup table (which
holds each variant's full name, but may also hold lookup keys of unrelated
entries), and null otherwise. -/
theorem C5_amended_thm (cfg : Config) (n : Str)
    (hvar : 2 ≤ ((lookupCI (Build_ConfigLookupTable cfg).allConfigShortcuts
      (Normalize_ShortcutName n)).getD []).length) :
    Get_ShortcutMatchKey n (Build_ConfigLookupTable cfg).allConfigShortcuts
        (Build_ConfigLookupTable cfg).expectedMap =
      (if memCI (Build_ConfigLookupTable cfg).expectedMap n then some n
       else none) := by
  simp only [Get_ShortcutMatchKey]
  cases hl : lookupCI (Build_ConfigLookupTable cfg).allConfigShortcuts
      (Normalize_ShortcutName n) with
  | none => rw [hl] at hvar; simp at hvar
  | some g =>
    rw [hl] at hvar
    simp only [Option.getD_some] at hvar
    have hg : g.length > 1 := hvar
    simp [hg]

/-- C5 (witness): the amended theorem applied to the variant-named observed
item `"A v1.lnk"` of the concrete config. -/
theorem C5_witness :
    2 ≤ ((lookupCI (Build_ConfigLookupTable cfgVariantShadow).allConfigShortcuts
      (Normalize_ShortcutName (str "A v1.lnk"))).getD []).length ∧
    Get_ShortcutMatchKey (str "A v1.lnk")
      (Build_ConfigLookupTable cfgVariantShadow).allConfigShortcuts
      (Build_ConfigLookupTable cfgVariantShadow).expectedMap =
      (if memCI (Build_ConfigLookupTable cfgVariantShadow).expectedMap
        (str "A v1.lnk") then some (str "A v1.lnk") else none) :=
  ⟨by decide, C5_amended_thm cfgVariantShadow (str "A v1.lnk") (by decide)⟩

/-! ### Missing-shortcut detection (C3) -/

theorem memCI_putCI {α : Type} (m : List (Str × α)) (k q : Str) (v : α) :
    memCI (putCI m k v) q ↔ ceq k q ∨ memCI m q := by
  by_cases h : ceq k q
  · unfold memCI
    rw [lookupCI_putCI_eq m v h]
    simp only [Option.isSome_some]
    exact ⟨fun _ => Or.inl h, fun _ => trivial⟩
  · unfold memCI
    rw [lookupCI_putCI_ne m v h]
    exact ⟨fun h2 => Or.inr h2, fun h2 => h2.resolve_left h⟩

theorem missingStep_eq (processed : List (Str × Bool))
    (det : List (Str × Details)) (acc : List MissingShortcut × List (Str × Bool))
    (kv : Str × Str) :
    missingStep processed det acc kv =
      if ¬ memCI processed kv.1 then
        if memCI acc.2 (detailKey kv.2 kv.1) then acc
        else
          match lookupCI det (detailKey kv.2 kv.1) with
          | some d =>
            if truthy d.targetPath then
              (acc.1 ++ [{ name := kv.1, folder := kv.2, details := d }],
               putCI acc.2 (detailKey kv.2 kv.1) true)
            else (acc.1, putCI acc.2 (detailKey kv.2 kv.1) true)
          | none => (acc.1, putCI acc.2 (detailKey kv.2 kv.1) true)
      else acc := rfl

theorem missingAux_cons (processed : List (Str × Bool))
    (det : List (Str × Details)) (kv : Str × Str) (r : List (Str × Str))
    (seen : List (Str × Bool)) :
    missingAux processed det (kv :: r) seen =
      if ¬ memCI processed kv.1 then
        if memCI seen (detailKey kv.2 kv.1) then missingAux processed det r seen
        else
          match lookupCI det (detailKey kv.2 kv.1) with
          | some d =>
            if truthy d.targetPath then
              { name := kv.1, folder := kv.2, details := d } ::
                missingAux processed det r (putCI seen (detailKey kv.2 kv.1) true)
            else missingAux processed det r (putCI seen (detailKey kv.2 kv.1) true)
          | none => missingAux processed det r (putCI seen (detailKey kv.2 kv.1) true)
      else missingAux processed det r seen := rfl

theorem detectMissing_foldl (processed : List (Str × Bool))
    (det : List (Str × Details)) (l : List (Str × Str))
    (acc : List MissingShortcut × List (Str × Bool)) :
    (l.foldl (missingStep processed det) acc).1 =
      acc.1 ++ missingAux processed det l acc.2 := by
  induction l generalizing acc with
  | nil => simp [missingAux]
  | cons kv r ih =>
    rw [List.foldl_cons, ih, missingStep_eq, missingAux_cons]
    by_cases h1 : memCI processed kv.1
    · rw [if_neg (fun hc => hc h1), if_neg (fun hc => hc h1)]
    · rw [if_pos h1, if_pos h1]
      by_cases h2 : memCI acc.2 (detailKey kv.2 kv.1)
      · rw [if_pos h2, if_pos h2]
      · rw [if_neg h2, if_neg h2]
        cases hd : lookupCI det (detailKey kv.2 kv.1) with
        | none => simp
        | some d =>
          by_cases h3 : truthy d.targetPath
          · simp [h3]
          · simp [h3]

theorem missingAux_shape (processed : List (Str × Bool))
    (det : List (Str × Details)) (l : List (Str × Str))
    (seen : List (Str × Bool)) :
    ∀ ms ∈ missingAux processed det l seen,
      ∃ kv ∈ l, ms.name = kv.1 ∧ ms.folder = kv.2 ∧ ¬ memCI processed kv.1 ∧
        lookupCI det (detailKey kv.2 kv.1) = some ms.details ∧
        truthy ms.details.targetPath := by
  induction l generalizing seen with
  | nil => intro ms h; simp [missingAux] at h
  | cons kv r ih =>
    intro ms h
    rw [missingAux_cons] at h
    by_cases h1 : memCI processed kv.1
    · rw [if_neg (fun hc => hc h1)] at h
      obtain ⟨kv2, hkv2, hrest⟩ := ih seen ms h
      exact ⟨kv2, List.mem_cons_of_mem _ hkv2, hrest⟩
    · rw [if_pos h1] at h
      by_cases h2 : memCI seen (detailKey kv.2 kv.1)
      · rw [if_pos h2] at h
        obtain ⟨kv2, hkv2, hrest⟩ := ih seen ms h
        exact ⟨kv2, List.mem_cons_of_mem _ hkv2, hrest⟩
      · rw [if_neg h2] at h
        cases hd : lookupCI det (detailKey kv.2 kv.1) with
        | none =>
          simp only [hd] at h
          obtain ⟨kv2, hkv2, hrest⟩ := ih _ ms h
          exact ⟨kv2, List.mem_cons_of_mem _ hkv2, hrest⟩
        | some d =>
          simp only [hd] at h
          by_cases h3 : truthy d.targetPath
          · rw [if_pos h3] at h
            rcases List.mem_cons.mp h with h4 | h4
            · subst h4
              exact ⟨kv, List.mem_cons_self kv r, rfl, rfl, h1, hd, h3⟩
            · obtain ⟨kv2, hkv2, hrest⟩ := ih _ ms h4
              exact ⟨kv2, List.mem_cons_of_mem _ hkv2, hrest⟩
          · rw [if_neg h3] at h
            obtain ⟨kv2, hkv2, hrest⟩ := ih _ ms h
            exact ⟨kv2, List.mem_cons_of_mem _ hkv2, hrest⟩

theorem missingAux_countP (processed : List (Str × Bool))
    (det : List (Str × Details)) (l : List (Str × Str))
    (seen : List (Str × Bool)) (k f : Str)
    (hin : (k, f) ∈ l)
    (hnp : ¬ memCI processed k)
    (hseen : ¬ memCI seen (detailKey f k))
    (hnd : l.Pairwise (fun a b => ¬ ceq (detailKey a.2 a.1) (detailKey b.2 b.1)))
    (hnd2 : l.Pairwise (fun a b => ¬ ceq a.1 b.1)) :
    (missingAux processed det l seen).countP
        (fun ms => decide (ms.name = k)) =
      (match lookupCI det (detailKey f k) with
       | some d => if truthy d.targetPath then 1 else 0
       | none => 0) := by
  induction l generalizing seen with
  | nil => simp at hin
  | cons kv r ih =>
    rcases List.mem_cons.mp hin with hkv | hkv
    · -- the head is exactly (k, f)
      have hkveq : kv = (k, f) := hkv.symm
      subst hkveq
      have hzero : ∀ seen2, (missingAux processed det r seen2).countP
          (fun ms => decide (ms.name = k)) = 0 := by
        intro seen2
        rw [List.countP_eq_zero]
        intro ms hms
        obtain ⟨kv2, hkv2, hname, _⟩ := missingAux_shape processed det r seen2 ms hms
        have hne := (List.pairwise_cons.mp hnd2).1 kv2 hkv2
        simp only [decide_eq_true_eq]
        intro heq
        exact hne (by rw [← hname, heq])
      rw [missingAux_cons]
      rw [if_pos hnp, if_neg hseen]
      cases hd : lookupCI det (detailKey f k) with
      | none => simpa using hzero _
      | some d =>
        by_cases h3 : truthy d.targetPath
        · simp only [h3, if_true, List.countP_cons]
          rw [hzero]
          simp
        · simp only [h3, if_false]
          simpa [h3] using hzero _
    · -- (k, f) is in the tail
      have hkne : ¬ ceq kv.1 k :=
        (List.pairwise_cons.mp hnd2).1 (k, f) hkv
      have hdkne : ¬ ceq (detailKey kv.2 kv.1) (detailKey f k) :=
        (List.pairwise_cons.mp hnd).1 (k, f) hkv
      have hndr := (List.pairwise_cons.mp hnd).2
      have hnd2r := (List.pairwise_cons.mp hnd2).2
      have hkne2 : kv.1 ≠ k := fun heq => hkne (heq ▸ Eq.refl _)
      rw [missingAux_cons]
      by_cases h1 : memCI processed kv.1
      · rw [if_neg (fun hc => hc h1)]
        exact ih seen hkv hseen hndr hnd2r
      · rw [if_pos h1]
        by_cases h2 : memCI seen (detailKey kv.2 kv.1)
        · rw [if_pos h2]
          exact ih seen hkv hseen hndr hnd2r
        · rw [if_neg h2]
          have hseen2 : ¬ memCI (putCI seen (detailKey kv.2 kv.1) true)
              (detailKey f k) := by
            rw [memCI_putCI]
            rintro (h3 | h3)
            · exact hdkne h3
            · exact hseen h3
          cases hd : lookupCI det (detailKey kv.2 kv.1) with
          | none =>
            simp only [hd]
            exact ih _ hkv hseen2 hndr hnd2r
          | some d =>
            simp only [hd]
            by_cases h3 : truthy d.targetPath
            · simp only [h3, if_true, List.countP_cons]
              rw [ih _ hkv hseen2 hndr hnd2r]
              simp [hkne2]
            · simp only [h3, if_false]
              exact ih _ hkv hseen2 hndr hnd2r

/-- C3 (counterexample): the config stores recreation metadata with a
target reference for its sole entry `"A v1.lnk"`; its lookup key `"A.lnk"`
is not satisfied (nothing was observed), yet zero `Recreate` actions are
emitted, because the details are looked up under `"F\A.lnk"` while they
are stored under `"F\A v1.lnk"`. -/
theorem C3_counterexample :
    (Build_ConfigLookupTable cfgVersionedUnique).expectedMap =
      [(str "A.lnk", str "F")] ∧
    lookupCI (Build_ConfigLookupTable cfgVersionedUnique).shortcutDetailsMap
      (detailKey (str "F") (str "A v1.lnk")) =
      some { targetPath := some (str "T") } ∧
    truthy (some (str "T")) ∧
    Detect_MissingShortcuts
      (Build_ConfigLookupTable cfgVersionedUnique).expectedMap []
      (Build_ConfigLookupTable cfgVersionedUnique).shortcutDetailsMap = [] := by
  refine ⟨by decide, by decide, by decide, by decide⟩

/-- C3 (amended): for every unsatisfied expected-map key, the Reconciler
emits exactly one `Recreate` action precisely when the details map contains
an entry under `"expectedFolder\key"` with a non-empty target reference
(for unique entries that key is the canonical name, so metadata stored
under a differing original name is never found and the key is only
logged); every emitted action carries that key's expected folder and the
stored details. -/
theorem C3_amended_thm (em : List (Str × Str)) (processed : List (Str × Bool))
    (det : List (Str × Details)) (k f : Str)
    (hnd : em.Pairwise (fun a b => ¬ ceq (detailKey a.2 a.1) (detailKey b.2 b.1)))
    (hnd2 : em.Pairwise (fun a b => ¬ ceq a.1 b.1))
    (hk : (k, f) ∈ em) (hnp : ¬ memCI processed k) :
    (Detect_MissingShortcuts em processed det).countP
        (fun ms => decide (ms.name = k)) =
      (match lookupCI det (detailKey f k) with
       | some d => if truthy d.targetPath then 1 else 0
       | none => 0) ∧
    ∀ ms ∈ Detect_MissingShortcuts em processed det,
      ∃ kv ∈ em, ms.name = kv.1 ∧ ms.folder = kv.2 ∧ ¬ memCI processed kv.1 ∧
        lookupCI det (detailKey kv.2 kv.1) = some ms.details ∧
        truthy ms.details.targetPath := by
  have hD : Detect_MissingShortcuts em processed det =
      missingAux processed det em [] := by
    unfold Detect_MissingShortcuts
    rw [detectMissing_foldl]
    simp
  rw [hD]
  constructor
  · exact missingAux_countP processed det em [] k f hk hnp (by simp [memCI, lookupCI]) hnd hnd2
  · exact missingAux_shape processed det em []

/-- C3 (witness): the amended theorem applied to the concrete config, where
the details lookup misses and zero recreations are counted. -/
theorem C3_witness :
    (Detect_MissingShortcuts
        (Build_ConfigLookupTable cfgVersionedUnique).expectedMap []
        (Build_ConfigLookupTable cfgVersionedUnique).shortcutDetailsMap).countP
        (fun ms => decide (ms.name = str "A.lnk")) =
      (match lookupCI (Build_ConfigLookupTable cfgVersionedUnique).shortcutDetailsMap
        (detailKey (str "F") (str "A.lnk")) with
       | some d => if truthy d.targetPath then 1 else 0
       | none => 0) :=
  (C3_amended_thm (Build_ConfigLookupTable cfgVersionedUnique).expectedMap []
    (Build_ConfigLookupTable cfgVersionedUnique).shortcutDetailsMap
    (str "A.lnk") (str "F") (by decide) (by decide) (by decide) (by decide)).1

/-! ### Mutation ordering in ENFORCE mode (C2) -/

theorem addFolder_mem_mono {fs : List Str} {g x : Str} (h : x ∈ fs) :
    x ∈ addFolder fs g := by
  unfold addFolder
  generalize ancestorsOf g = l
  induction l generalizing fs with
  | nil => exact h
  | cons a r ih =>
    rw [List.foldl_cons]
    by_cases h1 : (fs.any fun y => decide (ceq y a)) = true
    · rw [if_pos h1]; exact ih h
    · rw [if_neg h1]
      exact ih (List.mem_append_left _ h)

theorem configFolderCreations_spec (cfg : Config) (t0 : Tree) :
    ∀ f ∈ configFolderCreations cfg t0,
      f ∈ cfg.map (·.1) ∧ ¬ memC t0.folders f := by
  unfold configFolderCreations
  suffices haux : ∀ (l : Config) (acc : List Str × List Str),
      (∀ f ∈ acc.1, f ∈ cfg.map (·.1) ∧ ¬ memC t0.folders f) →
      (∀ x, memC t0.folders x → memC acc.2 x) →
      (∀ f ∈ l, f.1 ∈ cfg.map (·.1)) →
      ∀ f ∈ (l.foldl (fun (acc : List Str × List Str) fk =>
        if decide (¬ ceq fk.1 (str "Root") ∧ fk.1 ≠ []) then
          if acc.2.any (fun x => decide (ceq x fk.1)) then acc
          else (acc.1 ++ [fk.1], addFolder acc.2 fk.1)
        else acc) acc).1,
        f ∈ cfg.map (·.1) ∧ ¬ memC t0.folders f by
    exact haux cfg ([], t0.folders) (fun f hf => by simp at hf) (fun x h => h)
      (fun f hf => List.mem_map_of_mem (fun x => x.1) hf)
  intro l
  induction l with
  | nil => intro acc h1 h2 h3 f hf; exact h1 f hf
  | cons fk r ih =>
    intro acc h1 h2 h3 f hf
    rw [List.foldl_cons] at hf
    by_cases hc : (¬ ceq fk.1 (str "Root") ∧ fk.1 ≠ [])
    · rw [if_pos (by simpa using hc)] at hf
      by_cases hm : (acc.2.any fun x => decide (ceq x fk.1)) = true
      · rw [if_pos hm] at hf
        exact ih acc h1 h2 (fun g hg => h3 g (List.mem_cons_of_mem _ hg)) f hf
      · rw [if_neg hm] at hf
        refine ih _ ?_ ?_ (fun g hg => h3 g (List.mem_cons_of_mem _ hg)) f hf
        · intro g hg
          rcases List.mem_append.mp hg with hg1 | hg1
          · exact h1 g hg1
          · have hgk : g = fk.1 := by simpa using hg1
            subst hgk
            refine ⟨h3 fk (List.mem_cons_self fk r), ?_⟩
            intro hmem
            apply hm
            obtain ⟨x, hx, hcx⟩ := h2 _ hmem
            exact List.any_eq_true.mpr ⟨x, hx, by simpa using hcx⟩
        · intro x hx
          obtain ⟨y, hy, hcy⟩ := h2 x hx
          exact ⟨y, addFolder_mem_mono hy, hcy⟩
    · rw [if_neg (by simpa using hc)] at hf
      exact ih acc h1 h2 (fun g hg => h3 g (List.mem_cons_of_mem _ hg)) f hf

theorem takeWhile_append_all {α : Type} (p : α → Bool) (l r : List α)
    (h : ∀ e ∈ l, p e = true) :
    (l ++ r).takeWhile p = l ++ r.takeWhile p := by
  induction l with
  | nil => simp
  | cons x xs ih =>
    rw [List.cons_append, List.takeWhile_cons,
      if_pos (h x (List.mem_cons_self x xs)), ih (fun e he => h e (List.mem_cons_of_mem _ he))]
    rfl

theorem dropWhile_append_all {α : Type} (p : α → Bool) (l r : List α)
    (h : ∀ e ∈ l, p e = true) :
    (l ++ r).dropWhile p = r.dropWhile p := by
  induction l with
  | nil => simp
  | cons x xs ih =>
    rw [List.cons_append, List.dropWhile_cons,
      if_pos (h x (List.mem_cons_self x xs)), ih (fun e he => h e (List.mem_cons_of_mem _ he))]

theorem creations_not_prompt (cs : List Str) :
    ∀ e ∈ cs.map (fun f => Ev.fsMut (Mutation.createFolder f)),
      (decide (e ≠ Ev.prompt)) = true := by
  intro e he
  obtain ⟨f, _, hf⟩ := List.mem_map.mp he
  subst hf
  simp

/-- C2 (counterexample): with a one-folder config holding a recreatable
shortcut and an empty tree, interactive ENFORCE produces the event trace
`[createFolder F, prompt, recreate A.lnk]`: a filesystem mutation (folder
creation, performed inside the lookup-table build) occurs strictly before
the dry-run confirmation prompt. -/
theorem C2_counterexample :
    enforceTrace (some cfgRecreatable) qUnsorted treeBare true =
      [Ev.fsMut (Mutation.createFolder (str "F")), Ev.prompt,
       Ev.fsMut (Mutation.recreateFile (str "A.lnk") (str "F"))] ∧
    (enforceTrace (some cfgRecreatable) qUnsorted treeBare true).takeWhile
        (fun e => decide (e ≠ Ev.prompt)) =
      [Ev.fsMut (Mutation.createFolder (str "F"))] := by
  refine ⟨by decide, by decide⟩

/-- C2 (amended): a missing or unparsable config aborts the invocation
before any mutation; every mutation performed before the dry-run
confirmation prompt is the creation of a folder listed in the config (and
absent from the tree), done while building the lookup tables; and when the
operator declines, nothing at all happens after the prompt. -/
theorem C2_amended_thm (cfgOpt : Option Config) (qf : Str) (t0 : Tree)
    (confirmed : Bool) :
    (cfgOpt = none → enforceTrace cfgOpt qf t0 confirmed = []) ∧
    (∀ cfg, cfgOpt = some cfg →
      (∀ e ∈ (enforceTrace cfgOpt qf t0 confirmed).takeWhile
          (fun e => decide (e ≠ Ev.prompt)),
        ∃ f, e = Ev.fsMut (Mutation.createFolder f) ∧
          f ∈ cfg.map (·.1) ∧ ¬ memC t0.folders f) ∧
      (confirmed = false →
        ((enforceTrace cfgOpt qf t0 confirmed).dropWhile
          (fun e => decide (e ≠ Ev.prompt))).length ≤ 1)) := by
  constructor
  · intro h; subst h; rfl
  · intro cfg hc
    subst hc
    have hcreate : ∀ e ∈ (configFolderCreations cfg t0).map
        (fun f => Ev.fsMut (Mutation.createFolder f)),
        ∃ f, e = Ev.fsMut (Mutation.createFolder f) ∧
          f ∈ cfg.map (·.1) ∧ ¬ memC t0.folders f := by
      intro e he
      obtain ⟨f, hf, hfe⟩ := List.mem_map.mp he
      exact ⟨f, hfe.symm, configFolderCreations_spec cfg t0 f hf⟩
    by_cases hch : hasChanges (enforcePlan cfg qf (ensureConfigFolders cfg t0))
    · constructor
      · intro e he
        rw [show enforceTrace (some cfg) qf t0 confirmed =
            ((configFolderCreations cfg t0).map
              (fun f => Ev.fsMut (Mutation.createFolder f))) ++
            ([Ev.prompt] ++ (if confirmed then
              execEvents (enforcePlan cfg qf (ensureConfigFolders cfg t0))
              else [])) from by
          simp only [enforceTrace]
          rw [if_pos hch, List.append_assoc]] at he
        rw [takeWhile_append_all _ _ _ (creations_not_prompt _)] at he
        rcases List.mem_append.mp he with h1 | h1
        · exact hcreate e h1
        · rw [List.singleton_append, List.takeWhile_cons] at h1
          simp at h1
      · intro hcf
        subst hcf
        rw [show enforceTrace (some cfg) qf t0 false =
            ((configFolderCreations cfg t0).map
              (fun f => Ev.fsMut (Mutation.createFolder f))) ++
            ([Ev.prompt] ++ []) from by
          simp only [enforceTrace]
          rw [if_pos hch, if_neg (by simp), List.append_assoc]]
        rw [dropWhile_append_all _ _ _ (creations_not_prompt _)]
        rw [List.singleton_append, List.dropWhile_cons]
        simp
    · constructor
      · intro e he
        rw [show enforceTrace (some cfg) qf t0 confirmed =
            (configFolderCreations cfg t0).map
              (fun f => Ev.fsMut (Mutation.createFolder f)) from by
          simp only [enforceTrace]
          rw [if_neg hch]] at he
        exact hcreate e ((List.takeWhile_sublist _).mem he)
      · intro hcf
        rw [show enforceTrace (some cfg) qf t0 confirmed =
            (configFolderCreations cfg t0).map
              (fun f => Ev.fsMut (Mutation.createFolder f)) ++ [] from by
          simp only [enforceTrace]
          rw [if_neg hch, List.append_nil]]
        rw [dropWhile_append_all _ _ _ (creations_not_prompt _)]
        simp

/-- C2 (witness): the amended theorem applied at concrete inputs — the
missing-config case mutates nothing, and with the operator declining, at
most the prompt itself follows the pre-prompt segment. -/
theorem C2_witness :
    enforceTrace none qUnsorted treeBare true = [] ∧
    ((enforceTrace (some cfgRecreatable) qUnsorted treeBare false).dropWhile
      (fun e => decide (e ≠ Ev.prompt))).length ≤ 1 :=
  ⟨(C2_amended_thm none qUnsorted treeBare true).1 rfl,
   ((C2_amended_thm (some cfgRecreatable) qUnsorted treeBare false).2
     cfgRecreatable rfl).2 rfl⟩

/-! ### Empty-folder detection (C4) -/

theorem insDepth_perm (x : Str) (l : List Str) :
    (insDepth x l).Perm (x :: l) := by
  induction l with
  | nil => exact List.Perm.refl _
  | cons y r ih =>
    unfold insDepth
    by_cases h : depthOf x < depthOf y
    · rw [if_pos h]
      exact (List.Perm.cons y ih).trans (List.Perm.swap x y r)
    · rw [if_neg h]

theorem sortByDepthDesc_perm (l : List Str) : (sortByDepthDesc l).Perm l := by
  induction l with
  | nil => exact List.Perm.refl _
  | cons x r ih =>
    unfold sortByDepthDesc at ih ⊢
    rw [List.foldr_cons]
    exact (insDepth_perm x _).trans (List.Perm.cons x ih)

theorem efStep_skip (cfg : Config) (moves : List MoveAction) (t : Tree)
    (acc : List EmptyFolderDel × List Str) (f : Str)
    (h : memC acc.2 f ∨ memC (efExpected cfg) f ∨
      memD (efReceiving moves) (some f) ∨
      efWillBeEmpty t (efEmptied moves) f = false) :
    efStep cfg moves t acc f = acc := by
  unfold efStep
  by_cases h1 : memC acc.2 f
  · rw [if_pos h1]
  · rw [if_neg h1]
    by_cases h2 : memC (efExpected cfg) f
    · rw [if_pos h2]
    · rw [if_neg h2]
      by_cases h3 : memD (efReceiving moves) (some f)
      · rw [if_pos h3]
      · rw [if_neg h3]
        have h4 : efWillBeEmpty t (efEmptied moves) f = false := by
          rcases h with h | h | h | h
          · exact absurd h h1
          · exact absurd h h2
          · exact absurd h h3
          · exact h
        rw [h4]
        simp

theorem efStep_slate (cfg : Config) (moves : List MoveAction) (t : Tree)
    (acc : List EmptyFolderDel × List Str) (f : Str)
    (h1 : ¬ memC acc.2 f) (h2 : ¬ memC (efExpected cfg) f)
    (h3 : ¬ memD (efReceiving moves) (some f))
    (h4 : efWillBeEmpty t (efEmptied moves) f = true) :
    efStep cfg moves t acc f =
      (acc.1 ++ [{ path := f, displayFolder := f }], acc.2 ++ [f]) := by
  unfold efStep
  rw [if_neg h1, if_neg h2, if_neg h3, h4]
  simp

theorem efFold_mem (cfg : Config) (moves : List MoveAction) (t : Tree)
    (l : List Str) (acc : List EmptyFolderDel × List Str)
    (hnd : l.Pairwise (fun a b => ¬ ceq a b))
    (hseen : ∀ f ∈ l, ¬ memC acc.2 f) (e : EmptyFolderDel) :
    e ∈ (l.foldl (efStep cfg moves t) acc).1 ↔
      e ∈ acc.1 ∨ ∃ f ∈ l, e = { path := f, displayFolder := f } ∧
        efSlated cfg moves t f := by
  induction l generalizing acc with
  | nil => simp
  | cons f r ih =>
    rw [List.foldl_cons]
    have hndr := (List.pairwise_cons.mp hnd).2
    have hndf := (List.pairwise_cons.mp hnd).1
    have hseenf := hseen f (List.mem_cons_self f r)
    have hseenr : ∀ g ∈ r, ¬ memC acc.2 g :=
      fun g hg => hseen g (List.mem_cons_of_mem _ hg)
    by_cases h1 : memC (efExpected cfg) f
    · rw [efStep_skip cfg moves t acc f (Or.inr (Or.inl h1)),
        ih acc hndr hseenr]
      constructor
      · rintro (h | ⟨g, hg, he, hs⟩)
        · exact Or.inl h
        · exact Or.inr ⟨g, List.mem_cons_of_mem _ hg, he, hs⟩
      · rintro (h | ⟨g, hg, he, hs⟩)
        · exact Or.inl h
        · rcases List.mem_cons.mp hg with hg1 | hg1
          · subst hg1; exact absurd h1 hs.1
          · exact Or.inr ⟨g, hg1, he, hs⟩
    · by_cases h2 : memD (efReceiving moves) (some f)
      · rw [efStep_skip cfg moves t acc f (Or.inr (Or.inr (Or.inl h2))),
          ih acc hndr hseenr]
        constructor
        · rintro (h | ⟨g, hg, he, hs⟩)
          · exact Or.inl h
          · exact Or.inr ⟨g, List.mem_cons_of_mem _ hg, he, hs⟩
        · rintro (h | ⟨g, hg, he, hs⟩)
          · exact Or.inl h
          · rcases List.mem_cons.mp hg with hg1 | hg1
            · subst hg1; exact absurd h2 hs.2.1
            · exact Or.inr ⟨g, hg1, he, hs⟩
      · by_cases h3 : efWillBeEmpty t (efEmptied moves) f = true
        · rw [efStep_slate cfg moves t acc f hseenf h1 h2 h3]
          have hseenr2 : ∀ g ∈ r, ¬ memC (acc.2 ++ [f]) g := by
            intro g hg hmem
            obtain ⟨x, hx, hcx⟩ := hmem
            rcases List.mem_append.mp hx with hx1 | hx1
            · exact hseenr g hg ⟨x, hx1, hcx⟩
            · have : x = f := by simpa using hx1
              subst this
              exact hndf g hg hcx
          rw [ih _ hndr hseenr2]
          constructor
          · rintro (h | ⟨g, hg, he, hs⟩)
            · rcases List.mem_append.mp h with h4 | h4
              · exact Or.inl h4
              · have he : e = { path := f, displayFolder := f } := by
                  simpa using h4
                exact Or.inr ⟨f, List.mem_cons_self f r, he, h1, h2, h3⟩
            · exact Or.inr ⟨g, List.mem_cons_of_mem _ hg, he, hs⟩
          · rintro (h | ⟨g, hg, he, hs⟩)
            · exact Or.inl (List.mem_append_left _ h)
            · rcases List.mem_cons.mp hg with hg1 | hg1
              · subst hg1
                exact Or.inl (List.mem_append_right _ (by simpa using he))
              · exact Or.inr ⟨g, hg1, he, hs⟩
        · rw [efStep_skip cfg moves t acc f
            (Or.inr (Or.inr (Or.inr (by simpa using h3)))),
            ih acc hndr hseenr]
          constructor
          · rintro (h | ⟨g, hg, he, hs⟩)
            · exact Or.inl h
            · exact Or.inr ⟨g, List.mem_cons_of_mem _ hg, he, hs⟩
          · rintro (h | ⟨g, hg, he, hs⟩)
            · exact Or.inl h
            · rcases List.mem_cons.mp hg with hg1 | hg1
              · subst hg1; exact absurd hs.2.2 h3
              · exact Or.inr ⟨g, hg1, he, hs⟩

/-- C4 (counterexample): folder `G` holds exactly one shortcut, which the
plan slates for duplicate deletion; `G` is not in the config (and the code
has no separate protected-folder set), so by the claim it should be slated
for `DeleteEmptyFolder` — but the plan's empty-folder list is empty,
because duplicate deletes are not fed into the detection. -/
theorem C4_counterexample :
    (enforcePlan cfgOneEntry qUnsorted treeDupDelete).plannedDeletes.map
        (fun d => d.path) =
      [{ dir := some (str "G"), name := str "A v2.lnk" }] ∧
    (enforcePlan cfgOneEntry qUnsorted treeDupDelete).plannedMoves = [] ∧
    childFiles treeDupDelete (some (str "G")) =
      [{ dir := some (str "G"), name := str "A v2.lnk" }] ∧
    childDirs treeDupDelete (some (str "G")) = [] ∧
    ¬ memC (efExpected cfgOneEntry) (str "G") ∧
    (enforcePlan cfgOneEntry qUnsorted treeDupDelete).emptyFolders = [] := by
  refine ⟨by decide, by decide, by decide, by decide, by decide, by decide⟩

/-- C4 (amended): a folder is slated for `DeleteEmptyFolder` if and only if
it (a) is not explicitly present in the config, (a2) is not about to
receive planned move/quarantine targets, and (c) currently contains zero
items or all of its current items are sources of planned moves/quarantines;
planned duplicate deletes are not taken into account, and there is no
separate protected-system-folder test — protection arises only from config
membership (Save mode records `Programs\Startup` into the config). -/
theorem C4_amended_thm (cfg : Config) (moves : List MoveAction) (t : Tree)
    (e : EmptyFolderDel)
    (hnd : t.folders.Pairwise (fun a b => ¬ ceq a b)) :
    e ∈ Detect_EmptyFolders cfg moves t ↔
      ∃ f ∈ t.folders, e = { path := f, displayFolder := f } ∧
        efSlated cfg moves t f := by
  unfold Detect_EmptyFolders
  have hperm := sortByDepthDesc_perm t.folders
  have hnd2 : (sortByDepthDesc t.folders).Pairwise (fun a b => ¬ ceq a b) :=
    (hperm.pairwise_iff (fun h hc => h hc.symm)).mpr hnd
  rw [efFold_mem cfg moves t _ ([], []) hnd2 (fun f _ hm => by
    obtain ⟨x, hx, _⟩ := hm; simp at hx) e]
  simp only [List.not_mem_nil, false_or]
  constructor
  · rintro ⟨f, hf, he, hs⟩
    exact ⟨f, hperm.mem_iff.mp hf, he, hs⟩
  · rintro ⟨f, hf, he, hs⟩
    exact ⟨f, hperm.mem_iff.mpr hf, he, hs⟩

/-- C4 (witness): the amended characterization applied at a concrete tree —
the inner nested folder `X\Y` is slated. -/
theorem C4_witness :
    ({ path := str "X\\Y", displayFolder := str "X\\Y" } : EmptyFolderDel) ∈
      Detect_EmptyFolders cfgRecreatable [] treeNested :=
  (C4_amended_thm cfgRecreatable [] treeNested _ (by decide)).mpr
    ⟨str "X\\Y", by decide, rfl, by decide, by decide, by decide⟩

/-! ### Unknown-item scan steps (C6, C7) -/

theorem putCI_nil {α : Type} (k : Str) (v : α) : putCI [] k v = [(k, v)] := rfl

theorem lookupCI_single {α : Type} (k : Str) (v : α) :
    lookupCI [(k, v)] k = some v := by
  unfold lookupCI
  rw [if_pos rfl]

theorem putCI_single {α : Type} (k : Str) (v w : α) :
    putCI [(k, v)] k w = [(k, w)] := by
  unfold putCI
  rw [if_pos rfl]

theorem bumpCounter_nil (k : Str) : bumpCounter [] k = (1, [(k, 1)]) := rfl

theorem bumpCounter_single (k : Str) (c : Nat) :
    bumpCounter [(k, c)] k = (c + 1, [(k, c + 1)]) := by
  simp only [bumpCounter, lookupCI_single, Option.getD_some]
  rw [putCI_single]

/-- Scan step for an unknown item in a folder other than the quarantine
folder, with no index collision: a plain quarantine move is planned. -/
theorem scanStep_unknown_fresh (tables : ConfigTables) (qf : Str)
    (st : ScanState) (f n : Str) (hu : unknownTab tables n)
    (hlk : lookupCI st.actualIndex (Normalize_ShortcutName n) = none)
    (hq : ¬ ceq f qf) :
    scanStep tables qf st { dir := some f, name := n } =
      { st with
        actualIndex := putCI st.actualIndex (Normalize_ShortcutName n)
          { dir := some f, name := n }
        plannedMoves := st.plannedMoves ++
          [{ type := .quarantine
             source := { dir := some f, name := n }
             dest := { dir := some qf, name := n }
             name := n
             currentFolder := f
             destFolder := qf }] } := by
  have hnp : ¬ pceq ({ dir := some f, name := n } : Path)
      ({ dir := some qf, name := n } : Path) := by
    rintro ⟨hd, _⟩
    exact hq (by simpa [odirCeq, low] using hd)
  simp only [scanStep, matchKey_none hu, indexKeyOf_unknown hu, hlk, scanTail,
    relDisplay, Option.getD_some]
  rw [if_pos hnp]

/-- Scan step for an unknown item colliding with an unknown existing item,
neither of them in the quarantine folder: the current item gets the next
numbered quarantine name. -/
theorem scanStep_unknown_dup (tables : ConfigTables) (qf : Str)
    (st : ScanState) (f n : Str) (existing : Path) (hu : unknownTab tables n)
    (hlk : lookupCI st.actualIndex (Normalize_ShortcutName n) = some existing)
    (hex : Get_ShortcutMatchKey existing.name tables.allConfigShortcuts
      tables.expectedMap = none)
    (hq : ¬ ceq f qf) (hqe : ¬ odirCeq existing.dir (some qf)) :
    scanStep tables qf st { dir := some f, name := n } =
      { st with
        quarantineCounter :=
          (bumpCounter st.quarantineCounter (Normalize_ShortcutName n)).2
        plannedMoves := st.plannedMoves ++
          [mkNumberedQuarantine qf { dir := some f, name := n }
            (numberedName n
              (bumpCounter st.quarantineCounter (Normalize_ShortcutName n)).1)] } := by
  have hiq : ¬ odirCeq (some f) (some qf) :=
    fun hd => hq (by simpa [odirCeq, low] using hd)
  simp only [scanStep, scanDup, matchKey_none hu, indexKeyOf_unknown hu, hlk,
    dupCorrectFolder, hex]
  rw [if_neg (fun hc => hqe hc.1), if_neg (fun hc => hiq hc.1)]

theorem numberedName_length_ne (n : Str) (i : Nat)
    (hd : (natDigits i).length = 1) :
    (numberedName n i).length ≠ n.length := by
  unfold numberedName fileSplit
  cases h : lastDotIdx n with
  | none =>
    simp [str, hd, List.length_append]
  | some j =>
    by_cases hj : j = n.length - 1
    · simp only [hj, if_pos rfl]
      simp [str, hd, List.length_append, List.length_take]
      all_goals omega
    · simp only [if_neg hj]
      simp [str, hd, List.length_append, List.length_take, List.length_drop]
      all_goals omega

theorem numberedName_digit_ne (n : Str) :
    numberedName n 1 ≠ numberedName n 2 := by
  unfold numberedName
  intro h
  simp only [List.append_assoc] at h
  have h2 := List.append_cancel_left h
  have h3 := List.append_cancel_left h2
  have h4 : natDigits 1 = ['1'] := by decide
  have h5 : natDigits 2 = ['2'] := by decide
  rw [h4, h5] at h3
  simp at h3

/-- C7: for every config under which `n` is an unknown name and any three
folders other than the quarantine folder, scanning three same-named unknown
items plans exactly three quarantines into the quarantine folder whose
destination names are `n`, `n (1)`, `n (2)` (numbered before the
extension), pairwise distinct — and this list of destination names does not
depend on which folder is traversed first. -/
theorem C7_thm (cfg : Config) (qf : Str) (n f1 f2 f3 : Str)
    (hu : unknownName cfg n)
    (h1 : ¬ ceq f1 qf) (h2 : ¬ ceq f2 qf) (h3 : ¬ ceq f3 qf) :
    ((Scan_AndOrganizeShortcuts (Build_ConfigLookupTable cfg) qf
      [{ dir := some f1, name := n }, { dir := some f2, name := n },
       { dir := some f3, name := n }]).plannedMoves.map fun m => m.dest.name) =
      [n, numberedName n 1, numberedName n 2] ∧
    ((Scan_AndOrganizeShortcuts (Build_ConfigLookupTable cfg) qf
      [{ dir := some f1, name := n }, { dir := some f2, name := n },
       { dir := some f3, name := n }]).plannedMoves.map fun m => m.dest.dir) =
      [some qf, some qf, some qf] ∧
    ((Scan_AndOrganizeShortcuts (Build_ConfigLookupTable cfg) qf
      [{ dir := some f1, name := n }, { dir := some f2, name := n },
       { dir := some f3, name := n }]).plannedMoves.map fun m => m.type) =
      [MType.quarantine, MType.quarantine, MType.quarantine] ∧
    (Scan_AndOrganizeShortcuts (Build_ConfigLookupTable cfg) qf
      [{ dir := some f1, name := n }, { dir := some f2, name := n },
       { dir := some f3, name := n }]).plannedDeletes = [] ∧
    [n, numberedName n 1, numberedName n 2].Pairwise (· ≠ ·) := by
  have hut := unknownName_tab hu
  have e1 : scanStep (Build_ConfigLookupTable cfg) qf {}
      { dir := some f1, name := n } =
      { actualIndex := [(Normalize_ShortcutName n, { dir := some f1, name := n })]
        plannedMoves :=
          [{ type := .quarantine
             source := { dir := some f1, name := n }
             dest := { dir := some qf, name := n }
             name := n
             currentFolder := f1
             destFolder := qf }] } := by
    rw [scanStep_unknown_fresh (Build_ConfigLookupTable cfg) qf {} f1 n hut rfl h1]
    rfl
  have e2 : scanStep (Build_ConfigLookupTable cfg) qf
      { actualIndex := [(Normalize_ShortcutName n, { dir := some f1, name := n })]
        plannedMoves :=
          [{ type := .quarantine
             source := { dir := some f1, name := n }
             dest := { dir := some qf, name := n }
             name := n
             currentFolder := f1
             destFolder := qf }] }
      { dir := some f2, name := n } =
      { actualIndex := [(Normalize_ShortcutName n, { dir := some f1, name := n })]
        plannedMoves :=
          [{ type := .quarantine
             source := { dir := some f1, name := n }
             dest := { dir := some qf, name := n }
             name := n
             currentFolder := f1
             destFolder := qf },
           mkNumberedQuarantine qf { dir := some f2, name := n }
             (numberedName n 1)]
        quarantineCounter := [(Normalize_ShortcutName n, 1)] } := by
    rw [scanStep_unknown_dup (Build_ConfigLookupTable cfg) qf _ f2 n
      { dir := some f1, name := n } hut (lookupCI_single _ _)
      (matchKey_none hut) h2 (fun hd => h1 (by simpa [odirCeq, low] using hd))]
    rw [bumpCounter_nil]
    rfl
  have e3 : scanStep (Build_ConfigLookupTable cfg) qf
      { actualIndex := [(Normalize_ShortcutName n, { dir := some f1, name := n })]
        plannedMoves :=
          [{ type := .quarantine
             source := { dir := some f1, name := n }
             dest := { dir := some qf, name := n }
             name := n
             currentFolder := f1
             destFolder := qf },
           mkNumberedQuarantine qf { dir := some f2, name := n }
             (numberedName n 1)]
        quarantineCounter := [(Normalize_ShortcutName n, 1)] }
      { dir := some f3, name := n } =
      { actualIndex := [(Normalize_ShortcutName n, { dir := some f1, name := n })]
        plannedMoves :=
          [{ type := .quarantine
             source := { dir := some f1, name := n }
             dest := { dir := some qf, name := n }
             name := n
             currentFolder := f1
             destFolder := qf },
           mkNumberedQuarantine qf { dir := some f2, name := n }
             (numberedName n 1),
           mkNumberedQuarantine qf { dir := some f3, name := n }
             (numberedName n 2)]
        quarantineCounter := [(Normalize_ShortcutName n, 2)] } := by
    rw [scanStep_unknown_dup (Build_ConfigLookupTable cfg) qf _ f3 n
      { dir := some f1, name := n } hut (lookupCI_single _ _)
      (matchKey_none hut) h3 (fun hd => h1 (by simpa [odirCeq, low] using hd))]
    rw [bumpCounter_single]
    rfl
  have hscan : Scan_AndOrganizeShortcuts (Build_ConfigLookupTable cfg) qf
      [{ dir := some f1, name := n }, { dir := some f2, name := n },
       { dir := some f3, name := n }] =
      { actualIndex := [(Normalize_ShortcutName n, { dir := some f1, name := n })]
        plannedMoves :=
          [{ type := .quarantine
             source := { dir := some f1, name := n }
             dest := { dir := some qf, name := n }
             name := n
             currentFolder := f1
             destFolder := qf },
           mkNumberedQuarantine qf { dir := some f2, name := n }
             (numberedName n 1),
           mkNumberedQuarantine qf { dir := some f3, name := n }
             (numberedName n 2)]
        quarantineCounter := [(Normalize_ShortcutName n, 2)] } := by
    unfold Scan_AndOrganizeShortcuts
    rw [List.foldl_cons, List.foldl_cons, List.foldl_cons, List.foldl_nil]
    rw [e1, e2, e3]
  rw [hscan]
  refine ⟨by simp [mkNumberedQuarantine], by simp [mkNumberedQuarantine],
    by simp [mkNumberedQuarantine], rfl, ?_⟩
  refine List.pairwise_cons.mpr ⟨?_, List.pairwise_cons.mpr ⟨?_, ?_⟩⟩
  · intro x hx heq
    rcases List.mem_cons.mp hx with hx1 | hx1
    · subst hx1
      exact numberedName_length_ne n 1 (by decide) (by rw [← heq])
    · have hx2 : x = numberedName n 2 := by simpa using hx1
      subst hx2
      exact numberedName_length_ne n 2 (by decide) (by rw [← heq])
  · intro x hx heq
    have hx2 : x = numberedName n 2 := by simpa using hx
    subst hx2
    exact numberedName_digit_ne n heq
  · simp

/-- C7 (witness): the theorem applied to the empty config and three
concrete folders. -/
theorem C7_witness :
    ((Scan_AndOrganizeShortcuts (Build_ConfigLookupTable []) qUnsorted
      [{ dir := some (str "X"), name := str "app.lnk" },
       { dir := some (str "Y"), name := str "app.lnk" },
       { dir := some (str "Z"), name := str "app.lnk" }]).plannedMoves.map
        fun m => m.dest.name) =
      [str "app.lnk", numberedName (str "app.lnk") 1,
       numberedName (str "app.lnk") 2] :=
  (C7_thm [] qUnsorted (str "app.lnk") (str "X") (str "Y") (str "Z")
    (by intro e he; simp [configNames, configEntries] at he)
    (by decide) (by decide) (by decide)).1

/-! ### The scan-loop invariant -/

theorem pceq_refl (p : Path) : pceq p p := ⟨rfl, rfl⟩

theorem pceq_symm {p q : Path} (h : pceq p q) : pceq q p :=
  ⟨h.1.symm, h.2.symm⟩

theorem pceq_trans {p q r : Path} (h1 : pceq p q) (h2 : pceq q r) : pceq p r :=
  ⟨h1.1.trans h2.1, h1.2.trans h2.2⟩

/-- In a list of pairwise case-insensitively distinct paths, case-insensitive
equality implies equality. -/
theorem pairwise_pceq_eq {l : List Path}
    (hp : l.Pairwise (fun a b => ¬ pceq a b)) {a b : Path}
    (ha : a ∈ l) (hb : b ∈ l) (h : pceq a b) : a = b := by
  induction l with
  | nil => simp at ha
  | cons x r ih =>
    rcases List.mem_cons.mp ha with rfl | ha2
    · rcases List.mem_cons.mp hb with rfl | hb2
      · rfl
      · exact absurd h ((List.pairwise_cons.mp hp).1 b hb2)
    · rcases List.mem_cons.mp hb with rfl | hb2
      · exact absurd (pceq_symm h) ((List.pairwise_cons.mp hp).1 a ha2)
      · exact ih (List.pairwise_cons.mp hp).2 ha2 hb2

theorem removeFirst_mem_of_not {α : Type} {p : α → Prop} [DecidablePred p]
    {l : List α} {a : α} (ha : a ∈ l) (hna : ¬ p a) :
    a ∈ removeFirst p l := by
  induction l with
  | nil => simp at ha
  | cons x r ih =>
    unfold removeFirst
    by_cases hx : p x
    · rw [if_pos hx]
      rcases List.mem_cons.mp ha with rfl | h2
      · exact absurd hx hna
      · exact h2
    · rw [if_neg hx]
      rcases List.mem_cons.mp ha with rfl | h2
      · exact List.mem_cons_self _ _
      · exact List.mem_cons_of_mem _ (ih h2)

/-- An element not satisfying the predicate survives `removeLast`. -/
theorem removeLast_mem_of_not {α : Type} {p : α → Prop} [DecidablePred p]
    {l : List α} {a : α} (ha : a ∈ l) (hna : ¬ p a) :
    a ∈ removeLast p l := by
  unfold removeLast
  exact List.mem_reverse.mpr
    (removeFirst_mem_of_not (List.mem_reverse.mpr ha) hna)

/-- Membership in `putCI` over a key-duplicate-free table: either an
untouched old binding with a key outside the written class, or the new
binding. -/
theorem mem_putCI_nodup {α : Type} {m : List (Str × α)} {k : Str} {v : α}
    (hm : m.Pairwise (fun a b => ¬ ceq a.1 b.1)) {kv : Str × α}
    (h : kv ∈ putCI m k v) :
    (kv ∈ m ∧ ¬ ceq kv.1 k) ∨ (ceq kv.1 k ∧ kv.2 = v) := by
  induction m with
  | nil =>
    simp [putCI] at h
    subst h
    exact Or.inr ⟨rfl, rfl⟩
  | cons kv1 r ih =>
    unfold putCI at h
    by_cases h1 : ceq kv1.1 k
    · rw [if_pos h1] at h
      rcases List.mem_cons.mp h with rfl | h2
      · exact Or.inr ⟨h1, rfl⟩
      · refine Or.inl ⟨List.mem_cons_of_mem _ h2, fun hck => ?_⟩
        exact (List.pairwise_cons.mp hm).1 kv h2 (h1.trans hck.symm)
    · rw [if_neg h1] at h
      rcases List.mem_cons.mp h with rfl | h2
      · exact Or.inl ⟨List.mem_cons_self _ _, h1⟩
      · rcases ih (List.pairwise_cons.mp hm).2 h2 with ⟨hm2, hnc⟩ | hr
        · exact Or.inl ⟨List.mem_cons_of_mem _ hm2, hnc⟩
        · exact Or.inr hr

/-- `putCI` preserves pairwise key-class distinctness. -/
theorem putCI_pairwise {α : Type} {m : List (Str × α)} (k : Str) (v : α)
    (hm : m.Pairwise (fun a b => ¬ ceq a.1 b.1)) :
    (putCI m k v).Pairwise (fun a b => ¬ ceq a.1 b.1) := by
  induction m with
  | nil => simp [putCI]
  | cons kv1 r ih =>
    rcases List.pairwise_cons.mp hm with ⟨hh, ht⟩
    unfold putCI
    by_cases h1 : ceq kv1.1 k
    · rw [if_pos h1]
      exact List.pairwise_cons.mpr ⟨hh, ht⟩
    · rw [if_neg h1]
      refine List.pairwise_cons.mpr ⟨?_, ih ht⟩
      intro b hb
      rcases mem_putCI hb with hbm | ⟨hbc, _⟩
      · exact hh b hbm
      · exact fun hc => h1 (hc.trans hbc)

/-- The scan step with no index collision reduces to the common tail. -/
theorem scanStep_eq_none {tables : ConfigTables} {qf : Str} {st : ScanState}
    {item : Path}
    (h : lookupCI st.actualIndex (indexKeyOf tables item.name) = none) :
    scanStep tables qf st item =
      scanTail tables qf item
        (Get_ShortcutMatchKey item.name tables.allConfigShortcuts
          tables.expectedMap)
        (indexKeyOf tables item.name) st := by
  simp only [scanStep, h]

/-- The scan step with an index collision reduces to the duplicate branch. -/
theorem scanStep_eq_some {tables : ConfigTables} {qf : Str} {st : ScanState}
    {item existing : Path}
    (h : lookupCI st.actualIndex (indexKeyOf tables item.name) =
      some existing) :
    scanStep tables qf st item = scanDup tables qf st item existing := by
  simp only [scanStep, h]

/-- When the duplicate branch resolves a correct folder, neither colliding
name is unknown: a collision between index keys of an unknown and any other
name forces both match keys to `none`, which yields no correct folder. -/
theorem dup_some_not_unknown {tables : ConfigTables} {item existing : Path}
    {cf : Str}
    (hc : ceq (indexKeyOf tables existing.name) (indexKeyOf tables item.name))
    (hcf : dupCorrectFolder tables
      (Get_ShortcutMatchKey item.name tables.allConfigShortcuts
        tables.expectedMap) existing.name = some cf) :
    ¬ unknownTab tables item.name ∧ ¬ unknownTab tables existing.name := by
  constructor
  · intro hu
    have hkex : ceq (indexKeyOf tables existing.name)
        (Normalize_ShortcutName item.name) := by
      rw [← indexKeyOf_unknown hu]; exact hc
    have hmx := matchKey_none_of_indexKey_ceq hu hkex
    rw [matchKey_none hu] at hcf
    simp [dupCorrectFolder, hmx] at hcf
  · intro hu
    have hki : ceq (indexKeyOf tables item.name)
        (Normalize_ShortcutName existing.name) := by
      rw [← indexKeyOf_unknown hu]; exact hc.symm
    have hmi := matchKey_none_of_indexKey_ceq hu hki
    rw [hmi] at hcf
    simp [dupCorrectFolder, matchKey_none hu] at hcf

/-- Appending one element keeps a `countP` bound of one, provided the list
counts zero whenever the new element matches. -/
theorem countP_append_single_le {α : Type} (l : List α) (a : α) (f : α → Bool)
    (h : l.countP f ≤ 1) (hz : f a = true → l.countP f = 0) :
    (l ++ [a]).countP f ≤ 1 := by
  rw [List.countP_append]
  by_cases hfa : f a = true
  · rw [hz hfa]
    simp [List.countP_cons, hfa]
  · have h0 : List.countP f [a] = 0 := by simp [List.countP_cons, hfa]
    rw [h0]
    omega

/-- The common scan tail (index update plus planned move or quarantine for
the current item) establishes the invariant for the extended prefix, given
the invariant-shaped facts about the incoming state. -/
theorem scanTail_inv (tables : ConfigTables) (qf : Str) (pre : List Path)
    (item : Path) (st1 : ScanState)
    (hd : ∀ it ∈ pre, ¬ pceq it item)
    (h1 : ∀ m ∈ st1.plannedMoves, ∃ it ∈ pre ++ [item], m.source = it)
    (h2 : ∀ d ∈ st1.plannedDeletes, ∃ it ∈ pre ++ [item], d.path = it)
    (h3 : ∀ p : Path,
      st1.plannedMoves.countP (fun m => decide (pceq m.source p)) ≤ 1)
    (h4 : ∀ m ∈ st1.plannedMoves, ∀ d ∈ st1.plannedDeletes,
      ¬ pceq m.source d.path)
    (h5 : ∀ kv ∈ st1.actualIndex, ceq kv.1 (indexKeyOf tables kv.2.name))
    (h6 : ∀ kv ∈ st1.actualIndex, ∃ it ∈ pre ++ [item], kv.2 = it)
    (h7 : st1.actualIndex.Pairwise (fun a b => ¬ ceq a.1 b.1))
    (h8 : ∀ kv ∈ st1.actualIndex, ∀ d ∈ st1.plannedDeletes,
      ¬ pceq kv.2 d.path)
    (h9 : ∀ m ∈ st1.plannedMoves, unknownTab tables m.source.name →
      m.type = MType.quarantine ∧ m.dest.dir = some qf)
    (h10 : ∀ d ∈ st1.plannedDeletes, ¬ unknownTab tables d.path.name)
    (h11 : ∀ it ∈ pre, unknownTab tables it.name →
      ¬ odirCeq it.dir (some qf) →
      ∃ m ∈ st1.plannedMoves, m.source = it ∧ m.type = MType.quarantine ∧
        m.dest.dir = some qf)
    (hnm : ∀ m ∈ st1.plannedMoves, ¬ pceq m.source item)
    (hnd : ∀ d ∈ st1.plannedDeletes, ¬ pceq d.path item) :
    ScanInv tables qf (pre ++ [item])
      (scanTail tables qf item
        (Get_ShortcutMatchKey item.name tables.allConfigShortcuts
          tables.expectedMap)
        (indexKeyOf tables item.name) st1) := by
  have hitem_mem : item ∈ pre ++ [item] := by simp
  have hidxKey : ∀ kv ∈ putCI st1.actualIndex (indexKeyOf tables item.name)
      item, ceq kv.1 (indexKeyOf tables kv.2.name) := by
    intro kv hkv
    rcases mem_putCI hkv with hkv1 | ⟨hkc, hkv2⟩
    · exact h5 kv hkv1
    · rw [hkv2]
      exact hkc
  have hidxSrc : ∀ kv ∈ putCI st1.actualIndex (indexKeyOf tables item.name)
      item, ∃ it ∈ pre ++ [item], kv.2 = it := by
    intro kv hkv
    rcases mem_putCI hkv with hkv1 | ⟨_, hkv2⟩
    · exact h6 kv hkv1
    · exact ⟨item, hitem_mem, hkv2⟩
  have hidxND := putCI_pairwise (indexKeyOf tables item.name) item h7
  have hidxDel : ∀ kv ∈ putCI st1.actualIndex (indexKeyOf tables item.name)
      item, ∀ d ∈ st1.plannedDeletes, ¬ pceq kv.2 d.path := by
    intro kv hkv d hdl
    rcases mem_putCI hkv with hkv1 | ⟨_, hkv2⟩
    · exact h8 kv hkv1 d hdl
    · rw [hkv2]
      exact fun hpc => hnd d hdl (pceq_symm hpc)
  cases hmk : Get_ShortcutMatchKey item.name tables.allConfigShortcuts
      tables.expectedMap with
  | some mk =>
    have hnu : ¬ unknownTab tables item.name := by
      intro hu
      rw [matchKey_none hu] at hmk
      exact Option.noConfusion hmk
    simp only [scanTail]
    by_cases hmv : pceq item
      (⟨resolveFolder ((lookupCI tables.expectedMap mk).getD []),
        item.name⟩ : Path)
    · rw [if_neg (not_not_intro hmv)]
      refine ⟨h1, h2, h3, h4, hidxKey, hidxSrc, hidxND, hidxDel, h9, h10, ?_⟩
      intro it hit hu hq
      rcases List.mem_append.mp hit with hit1 | hit1
      · exact h11 it hit1 hu hq
      · rw [List.mem_singleton] at hit1
        subst hit1
        exact absurd hu hnu
    · rw [if_pos hmv]
      refine ⟨?_, h2, ?_, ?_, hidxKey, hidxSrc, hidxND, hidxDel, ?_, h10, ?_⟩
      · intro m hm
        rcases List.mem_append.mp hm with hm1 | hm1
        · exact h1 m hm1
        · rw [List.mem_singleton] at hm1
          subst hm1
          exact ⟨item, hitem_mem, rfl⟩
      · intro p
        refine countP_append_single_le _ _ _ (h3 p) ?_
        intro hfa
        simp only [decide_eq_true_eq] at hfa
        rw [List.countP_eq_zero]
        intro m hm
        simp only [decide_eq_true_eq]
        exact fun hpc => hnm m hm (pceq_trans hpc (pceq_symm hfa))
      · intro m hm d hdl
        rcases List.mem_append.mp hm with hm1 | hm1
        · exact h4 m hm1 d hdl
        · rw [List.mem_singleton] at hm1
          subst hm1
          exact fun hpc => hnd d hdl (pceq_symm hpc)
      · intro m hm hu
        rcases List.mem_append.mp hm with hm1 | hm1
        · exact h9 m hm1 hu
        · rw [List.mem_singleton] at hm1
          subst hm1
          exact absurd hu hnu
      · intro it hit hu hq
        rcases List.mem_append.mp hit with hit1 | hit1
        · obtain ⟨m, hm, hms⟩ := h11 it hit1 hu hq
          exact ⟨m, List.mem_append_left _ hm, hms⟩
        · rw [List.mem_singleton] at hit1
          subst hit1
          exact absurd hu hnu
  | none =>
    simp only [scanTail]
    by_cases hq0 : pceq item { dir := some qf, name := item.name }
    · rw [if_neg (not_not_intro hq0)]
      refine ⟨h1, h2, h3, h4, hidxKey, hidxSrc, hidxND, hidxDel, h9, h10, ?_⟩
      intro it hit hu hq
      rcases List.mem_append.mp hit with hit1 | hit1
      · exact h11 it hit1 hu hq
      · rw [List.mem_singleton] at hit1
        subst hit1
        exact absurd hq0.1 hq
    · rw [if_pos hq0]
      refine ⟨?_, h2, ?_, ?_, hidxKey, hidxSrc, hidxND, hidxDel, ?_, h10, ?_⟩
      · intro m hm
        rcases List.mem_append.mp hm with hm1 | hm1
        · exact h1 m hm1
        · rw [List.mem_singleton] at hm1
          subst hm1
          exact ⟨item, hitem_mem, rfl⟩
      · intro p
        refine countP_append_single_le _ _ _ (h3 p) ?_
        intro hfa
        simp only [decide_eq_true_eq] at hfa
        rw [List.countP_eq_zero]
        intro m hm
        simp only [decide_eq_true_eq]
        exact fun hpc => hnm m hm (pceq_trans hpc (pceq_symm hfa))
      · intro m hm d hdl
        rcases List.mem_append.mp hm with hm1 | hm1
        · exact h4 m hm1 d hdl
        · rw [List.mem_singleton] at hm1
          subst hm1
          exact fun hpc => hnd d hdl (pceq_symm hpc)
      · intro m hm hu
        rcases List.mem_append.mp hm with hm1 | hm1
        · exact h9 m hm1 hu
        · rw [List.mem_singleton] at hm1
          subst hm1
          exact ⟨rfl, rfl⟩
      · intro it hit hu hq
        rcases List.mem_append.mp hit with hit1 | hit1
        · obtain ⟨m, hm, hms⟩ := h11 it hit1 hu hq
          exact ⟨m, List.mem_append_left _ hm, hms⟩
        · rw [List.mem_singleton] at hit1
          subst hit1
          exact ⟨_, List.mem_append_right _ (List.mem_singleton.mpr rfl),
            rfl, rfl, rfl⟩

/-- Duplicate branch, existing-is-wrong case (lines 716-775): the existing
copy loses its planned move, is slated for deletion, and the current item
falls through to the common tail. -/
theorem scanDup_eq_b2 {tables : ConfigTables} {qf : Str} {st : ScanState}
    {item existing : Path} {cf : Str}
    (hcf : dupCorrectFolder tables
      (Get_ShortcutMatchKey item.name tables.allConfigShortcuts
        tables.expectedMap) existing.name = some cf)
    (h2 : ¬ ceq (relDisplay existing.dir) cf ∧ ceq (relDisplay item.dir) cf) :
    scanDup tables qf st item existing =
      scanTail tables qf item
        (Get_ShortcutMatchKey item.name tables.allConfigShortcuts
          tables.expectedMap)
        (indexKeyOf tables item.name)
        { st with
          plannedMoves := removeLast (fun m => pceq m.source existing)
            st.plannedMoves
          plannedDeletes := st.plannedDeletes ++
            [{ path := existing, name := existing.name,
               folder := relDisplay existing.dir, correctFolder := cf }]
          foldersToCheck := st.foldersToCheck ++ [existing.dir]
          actualIndex := putCI st.actualIndex (indexKeyOf tables item.name)
            item } := by
  simp only [scanDup, hcf]
  rw [if_neg (fun hc => h2.1 hc.2), if_pos h2]

/-- Duplicate branch, delete-the-current-copy cases (lines 692-714 and
777-807): whenever the existing copy is not the one in the wrong folder,
the current item is slated for deletion and the loop continues. -/
theorem scanDup_eq_delcur {tables : ConfigTables} {qf : Str} {st : ScanState}
    {item existing : Path} {cf : Str}
    (hcf : dupCorrectFolder tables
      (Get_ShortcutMatchKey item.name tables.allConfigShortcuts
        tables.expectedMap) existing.name = some cf)
    (h2 : ¬ (¬ ceq (relDisplay existing.dir) cf ∧
      ceq (relDisplay item.dir) cf)) :
    scanDup tables qf st item existing =
      { st with
        plannedDeletes := st.plannedDeletes ++
          [{ path := item, name := item.name, folder := relDisplay item.dir,
             correctFolder := cf }]
        foldersToCheck := st.foldersToCheck ++ [item.dir] } := by
  simp only [scanDup, hcf]
  by_cases h1 : ¬ ceq (relDisplay item.dir) cf ∧ ceq (relDisplay existing.dir) cf
  · rw [if_pos h1]
  · rw [if_neg h1, if_neg h2]
    by_cases h3 : ceq (relDisplay item.dir) cf ∧ ceq (relDisplay existing.dir) cf
    · rw [if_pos h3]
    · rw [if_neg h3]

/-- Duplicate branch, both copies unknown, current copy inside the
quarantine folder but the existing copy outside it (lines 786-817): the
existing copy's planned move is replaced by a numbered quarantine and the
current item falls through to the common tail. -/
theorem scanDup_eq_u2 {tables : ConfigTables} {qf : Str} {st : ScanState}
    {item existing : Path}
    (hcf : dupCorrectFolder tables
      (Get_ShortcutMatchKey item.name tables.allConfigShortcuts
        tables.expectedMap) existing.name = none)
    (h2 : odirCeq item.dir (some qf) ∧ ¬ odirCeq existing.dir (some qf)) :
    scanDup tables qf st item existing =
      scanTail tables qf item
        (Get_ShortcutMatchKey item.name tables.allConfigShortcuts
          tables.expectedMap)
        (indexKeyOf tables item.name)
        { st with
          quarantineCounter := (bumpCounter st.quarantineCounter
            (Normalize_ShortcutName item.name)).2
          plannedMoves :=
            removeLast (fun m => pceq m.source existing) st.plannedMoves ++
              [mkNumberedQuarantine qf existing
                (numberedName existing.name
                  (bumpCounter st.quarantineCounter
                    (Normalize_ShortcutName item.name)).1)]
          actualIndex := putCI st.actualIndex (indexKeyOf tables item.name)
            item } := by
  simp only [scanDup, hcf]
  rw [if_neg (fun hc => hc.2 h2.1), if_pos h2]

/-- Duplicate branch, both copies unknown, remaining cases (lines 786-798
and 819-827): the current item gets the next numbered quarantine name and
the loop continues. -/
theorem scanDup_eq_numcur {tables : ConfigTables} {qf : Str} {st : ScanState}
    {item existing : Path}
    (hcf : dupCorrectFolder tables
      (Get_ShortcutMatchKey item.name tables.allConfigShortcuts
        tables.expectedMap) existing.name = none)
    (h2 : ¬ (odirCeq item.dir (some qf) ∧ ¬ odirCeq existing.dir (some qf))) :
    scanDup tables qf st item existing =
      { st with
        quarantineCounter := (bumpCounter st.quarantineCounter
          (Normalize_ShortcutName item.name)).2
        plannedMoves := st.plannedMoves ++
          [mkNumberedQuarantine qf item
            (numberedName item.name
              (bumpCounter st.quarantineCounter
                (Normalize_ShortcutName item.name)).1)] } := by
  simp only [scanDup, hcf]
  by_cases h1 : odirCeq existing.dir (some qf) ∧ ¬ odirCeq item.dir (some qf)
  · rw [if_pos h1]
  · rw [if_neg h1, if_neg h2]

/-- One scan step preserves the invariant, extending the processed prefix
by the current item, provided observed paths are pairwise distinct. -/
theorem scanStep_inv (tables : ConfigTables) (qf : Str) (pre : List Path)
    (st : ScanState) (item : Path)
    (hpre : pre.Pairwise (fun a b => ¬ pceq a b))
    (hd : ∀ it ∈ pre, ¬ pceq it item)
    (hinv : ScanInv tables qf pre st) :
    ScanInv tables qf (pre ++ [item]) (scanStep tables qf st item) := by
  have hitem_mem : item ∈ pre ++ [item] := by simp
  have w1 : ∀ m ∈ st.plannedMoves, ∃ it ∈ pre ++ [item], m.source = it := by
    intro m hm
    obtain ⟨it, hit, he⟩ := hinv.movesSrc m hm
    exact ⟨it, List.mem_append_left _ hit, he⟩
  have w2 : ∀ d ∈ st.plannedDeletes, ∃ it ∈ pre ++ [item], d.path = it := by
    intro d hdl
    obtain ⟨it, hit, he⟩ := hinv.delSrc d hdl
    exact ⟨it, List.mem_append_left _ hit, he⟩
  have w6 : ∀ kv ∈ st.actualIndex, ∃ it ∈ pre ++ [item], kv.2 = it := by
    intro kv hkv
    obtain ⟨it, hit, he⟩ := hinv.idxSrc kv hkv
    exact ⟨it, List.mem_append_left _ hit, he⟩
  have hnm : ∀ m ∈ st.plannedMoves, ¬ pceq m.source item := by
    intro m hm hpc
    obtain ⟨it, hit, he⟩ := hinv.movesSrc m hm
    exact hd it hit (he ▸ hpc)
  have hnd : ∀ d ∈ st.plannedDeletes, ¬ pceq d.path item := by
    intro d hdl hpc
    obtain ⟨it, hit, he⟩ := hinv.delSrc d hdl
    exact hd it hit (he ▸ hpc)
  have hnk : ∀ kv ∈ st.actualIndex, ¬ pceq kv.2 item := by
    intro kv hkv hpc
    obtain ⟨it, hit, he⟩ := hinv.idxSrc kv hkv
    exact hd it hit (he ▸ hpc)
  cases hlk : lookupCI st.actualIndex (indexKeyOf tables item.name) with
  | none =>
    rw [scanStep_eq_none hlk]
    exact scanTail_inv tables qf pre item st hd w1 w2 hinv.movesOnce
      hinv.movesDel hinv.idxKey w6 hinv.idxNodup hinv.idxDel hinv.unkMove
      hinv.unkDel hinv.unkWit hnm hnd
  | some existing =>
    rw [scanStep_eq_some hlk]
    obtain ⟨k0, hk0mem, hk0ceq⟩ := lookupCI_some_mem hlk
    have hex_pre : existing ∈ pre := by
      obtain ⟨it, hit, he⟩ := hinv.idxSrc (k0, existing) hk0mem
      rw [show existing = it from he]
      exact hit
    have hcex : ceq (indexKeyOf tables existing.name)
        (indexKeyOf tables item.name) :=
      (hinv.idxKey (k0, existing) hk0mem).symm.trans hk0ceq
    have hnpx : ¬ pceq existing item := hd existing hex_pre
    have hput_key : ∀ kv ∈ putCI st.actualIndex (indexKeyOf tables item.name)
        item, ceq kv.1 (indexKeyOf tables kv.2.name) := by
      intro kv hkv
      rcases mem_putCI hkv with hkv1 | ⟨hkc, hkv2⟩
      · exact hinv.idxKey kv hkv1
      · rw [hkv2]
        exact hkc
    have hput_src : ∀ kv ∈ putCI st.actualIndex (indexKeyOf tables item.name)
        item, ∃ it ∈ pre ++ [item], kv.2 = it := by
      intro kv hkv
      rcases mem_putCI hkv with hkv1 | ⟨_, hkv2⟩
      · exact w6 kv hkv1
      · exact ⟨item, hitem_mem, hkv2⟩
    have hput_nd := putCI_pairwise (indexKeyOf tables item.name) item
      hinv.idxNodup
    have hput_not_ex : ∀ kv ∈ putCI st.actualIndex
        (indexKeyOf tables item.name) item, ¬ pceq kv.2 existing := by
      intro kv hkv hpc
      rcases mem_putCI_nodup hinv.idxNodup hkv with ⟨hkv1, hknc⟩ | ⟨_, hkv2⟩
      · obtain ⟨it, hit, he⟩ := hinv.idxSrc kv hkv1
        have hkv_pre : kv.2 ∈ pre := by
          rw [he]
          exact hit
        have hkeq : kv.2 = existing :=
          pairwise_pceq_eq hpre hkv_pre hex_pre hpc
        exact hknc (((hinv.idxKey kv hkv1).trans
          (congrArg (fun nm => low (indexKeyOf tables nm))
            (congrArg Path.name hkeq))).trans hcex)
      · rw [hkv2] at hpc
        exact hnpx (pceq_symm hpc)
    have hrem_sub : ∀ m ∈ removeLast (fun m => pceq m.source existing)
        st.plannedMoves, m ∈ st.plannedMoves := fun m hm => removeLast_mem hm
    have hrem_not : ∀ m ∈ removeLast (fun m => pceq m.source existing)
        st.plannedMoves, ¬ pceq m.source existing :=
      removeLast_countP _ st.plannedMoves (hinv.movesOnce existing)
    cases hcf : dupCorrectFolder tables
        (Get_ShortcutMatchKey item.name tables.allConfigShortcuts
          tables.expectedMap) existing.name with
    | some cf =>
      obtain ⟨hnui, hnux⟩ := dup_some_not_unknown hcex hcf
      by_cases hb2 : ¬ ceq (relDisplay existing.dir) cf ∧
        ceq (relDisplay item.dir) cf
      · rw [scanDup_eq_b2 hcf hb2]
        refine scanTail_inv tables qf pre item _ hd ?_ ?_ ?_ ?_ hput_key
          hput_src hput_nd ?_ ?_ ?_ ?_ ?_ ?_
        · intro m hm
          exact w1 m (hrem_sub m hm)
        · intro d hdl
          rcases List.mem_append.mp hdl with hdl1 | hdl1
          · exact w2 d hdl1
          · rw [List.mem_singleton] at hdl1
            subst hdl1
            exact ⟨existing, List.mem_append_left _ hex_pre, rfl⟩
        · intro p
          exact le_trans (List.Sublist.countP_le _ (removeLast_sublist _ _))
            (hinv.movesOnce p)
        · intro m hm d hdl
          rcases List.mem_append.mp hdl with hdl1 | hdl1
          · exact hinv.movesDel m (hrem_sub m hm) d hdl1
          · rw [List.mem_singleton] at hdl1
            subst hdl1
            exact hrem_not m hm
        · intro kv hkv d hdl
          rcases List.mem_append.mp hdl with hdl1 | hdl1
          · rcases mem_putCI hkv with hkv1 | ⟨_, hkv2⟩
            · exact hinv.idxDel kv hkv1 d hdl1
            · rw [hkv2]
              exact fun h => hnd d hdl1 (pceq_symm h)
          · rw [List.mem_singleton] at hdl1
            subst hdl1
            exact hput_not_ex kv hkv
        · intro m hm
          exact hinv.unkMove m (hrem_sub m hm)
        · intro d hdl
          rcases List.mem_append.mp hdl with hdl1 | hdl1
          · exact hinv.unkDel d hdl1
          · rw [List.mem_singleton] at hdl1
            subst hdl1
            exact hnux
        · intro it hit hu hq
          obtain ⟨m, hm, hs, ht, hdd⟩ := hinv.unkWit it hit hu hq
          have hns : ¬ pceq m.source existing := by
            rw [hs]
            intro hpc
            have hie : it = existing := pairwise_pceq_eq hpre hit hex_pre hpc
            rw [hie] at hu
            exact hnux hu
          exact ⟨m, removeLast_mem_of_not hm hns, hs, ht, hdd⟩
        · intro m hm
          exact hnm m (hrem_sub m hm)
        · intro d hdl
          rcases List.mem_append.mp hdl with hdl1 | hdl1
          · exact hnd d hdl1
          · rw [List.mem_singleton] at hdl1
            subst hdl1
            exact hnpx
      · rw [scanDup_eq_delcur hcf hb2]
        refine ⟨w1, ?_, hinv.movesOnce, ?_, hinv.idxKey, w6, hinv.idxNodup,
          ?_, hinv.unkMove, ?_, ?_⟩
        · intro d hdl
          rcases List.mem_append.mp hdl with hdl1 | hdl1
          · exact w2 d hdl1
          · rw [List.mem_singleton] at hdl1
            subst hdl1
            exact ⟨item, hitem_mem, rfl⟩
        · intro m hm d hdl
          rcases List.mem_append.mp hdl with hdl1 | hdl1
          · exact hinv.movesDel m hm d hdl1
          · rw [List.mem_singleton] at hdl1
            subst hdl1
            exact hnm m hm
        · intro kv hkv d hdl
          rcases List.mem_append.mp hdl with hdl1 | hdl1
          · exact hinv.idxDel kv hkv d hdl1
          · rw [List.mem_singleton] at hdl1
            subst hdl1
            exact hnk kv hkv
        · intro d hdl
          rcases List.mem_append.mp hdl with hdl1 | hdl1
          · exact hinv.unkDel d hdl1
          · rw [List.mem_singleton] at hdl1
            subst hdl1
            exact hnui
        · intro it hit hu hq
          rcases List.mem_append.mp hit with hit1 | hit1
          · exact hinv.unkWit it hit1 hu hq
          · rw [List.mem_singleton] at hit1
            subst hit1
            exact absurd hu hnui
    | none =>
      by_cases hu2 : odirCeq item.dir (some qf) ∧
        ¬ odirCeq existing.dir (some qf)
      · rw [scanDup_eq_u2 hcf hu2]
        refine scanTail_inv tables qf pre item _ hd ?_ w2 ?_ ?_ hput_key
          hput_src hput_nd ?_ ?_ hinv.unkDel ?_ ?_ hnd
        · intro m hm
          rcases List.mem_append.mp hm with hm1 | hm1
          · exact w1 m (hrem_sub m hm1)
          · rw [List.mem_singleton] at hm1
            subst hm1
            exact ⟨existing, List.mem_append_left _ hex_pre, rfl⟩
        · intro p
          refine countP_append_single_le _ _ _
            (le_trans (List.Sublist.countP_le _ (removeLast_sublist _ _))
              (hinv.movesOnce p)) ?_
          intro hfa
          simp only [decide_eq_true_eq] at hfa
          rw [List.countP_eq_zero]
          intro m hm
          simp only [decide_eq_true_eq]
          exact fun hpc =>
            hrem_not m hm (pceq_trans hpc (pceq_symm hfa))
        · intro m hm d hdl
          rcases List.mem_append.mp hm with hm1 | hm1
          · exact hinv.movesDel m (hrem_sub m hm1) d hdl
          · rw [List.mem_singleton] at hm1
            subst hm1
            exact hinv.idxDel (k0, existing) hk0mem d hdl
        · intro kv hkv d hdl
          rcases mem_putCI hkv with hkv1 | ⟨_, hkv2⟩
          · exact hinv.idxDel kv hkv1 d hdl
          · rw [hkv2]
            exact fun h => hnd d hdl (pceq_symm h)
        · intro m hm hu
          rcases List.mem_append.mp hm with hm1 | hm1
          · exact hinv.unkMove m (hrem_sub m hm1) hu
          · rw [List.mem_singleton] at hm1
            subst hm1
            exact ⟨rfl, rfl⟩
        · intro it hit hu hq
          by_cases hie : it = existing
          · subst hie
            exact ⟨_, List.mem_append_right _ (List.mem_singleton.mpr rfl),
              rfl, rfl, rfl⟩
          · obtain ⟨m, hm, hs, ht, hdd⟩ := hinv.unkWit it hit hu hq
            have hns : ¬ pceq m.source existing := by
              rw [hs]
              intro hpc
              exact hie (pairwise_pceq_eq hpre hit hex_pre hpc)
            exact ⟨m, List.mem_append_left _ (removeLast_mem_of_not hm hns),
              hs, ht, hdd⟩
        · intro m hm
          rcases List.mem_append.mp hm with hm1 | hm1
          · exact hnm m (hrem_sub m hm1)
          · rw [List.mem_singleton] at hm1
            subst hm1
            exact hnpx
      · rw [scanDup_eq_numcur hcf hu2]
        refine ⟨?_, w2, ?_, ?_, hinv.idxKey, w6, hinv.idxNodup, hinv.idxDel,
          ?_, hinv.unkDel, ?_⟩
        · intro m hm
          rcases List.mem_append.mp hm with hm1 | hm1
          · exact w1 m hm1
          · rw [List.mem_singleton] at hm1
            subst hm1
            exact ⟨item, hitem_mem, rfl⟩
        · intro p
          refine countP_append_single_le _ _ _ (hinv.movesOnce p) ?_
          intro hfa
          simp only [decide_eq_true_eq] at hfa
          rw [List.countP_eq_zero]
          intro m hm
          simp only [decide_eq_true_eq]
          exact fun hpc => hnm m hm (pceq_trans hpc (pceq_symm hfa))
        · intro m hm d hdl
          rcases List.mem_append.mp hm with hm1 | hm1
          · exact hinv.movesDel m hm1 d hdl
          · rw [List.mem_singleton] at hm1
            subst hm1
            exact fun h => hnd d hdl (pceq_symm h)
        · intro m hm hu
          rcases List.mem_append.mp hm with hm1 | hm1
          · exact hinv.unkMove m hm1 hu
          · rw [List.mem_singleton] at hm1
            subst hm1
            exact ⟨rfl, rfl⟩
        · intro it hit hu hq
          rcases List.mem_append.mp hit with hit1 | hit1
          · obtain ⟨m, hm, hms⟩ := hinv.unkWit it hit1 hu hq
            exact ⟨m, List.mem_append_left _ hm, hms⟩
          · rw [List.mem_singleton] at hit1
            subst hit1
            exact ⟨_, List.mem_append_right _ (List.mem_singleton.mpr rfl),
              rfl, rfl, rfl⟩

/-- The empty scan state satisfies the invariant for the empty prefix. -/
theorem scanInv_nil (tables : ConfigTables) (qf : Str) :
    ScanInv tables qf [] {} :=
  ⟨fun m hm => absurd hm (List.not_mem_nil m),
   fun d hd0 => absurd hd0 (List.not_mem_nil d),
   fun _ => Nat.zero_le 1,
   fun m hm => absurd hm (List.not_mem_nil m),
   fun kv hkv => absurd hkv (List.not_mem_nil kv),
   fun kv hkv => absurd hkv (List.not_mem_nil kv),
   List.Pairwise.nil,
   fun kv hkv => absurd hkv (List.not_mem_nil kv),
   fun m hm => absurd hm (List.not_mem_nil m),
   fun d hd0 => absurd hd0 (List.not_mem_nil d),
   fun it hit => absurd hit (List.not_mem_nil it)⟩

theorem scan_inv_aux (tables : ConfigTables) (qf : Str) (items : List Path) :
    ∀ (pre : List Path) (st : ScanState),
      (pre ++ items).Pairwise (fun a b => ¬ pceq a b) →
      ScanInv tables qf pre st →
      ScanInv tables qf (pre ++ items)
        (items.foldl (scanStep tables qf) st) := by
  induction items with
  | nil =>
    intro pre st hall hinv
    simpa using hinv
  | cons x r ih =>
    intro pre st hall hinv
    rw [List.foldl_cons]
    have hall2 : ((pre ++ [x]) ++ r).Pairwise (fun a b => ¬ pceq a b) := by
      rw [List.append_assoc, List.singleton_append]
      exact hall
    have hpp : pre.Pairwise (fun a b => ¬ pceq a b) :=
      List.Pairwise.sublist (List.sublist_append_left _ _) hall
    have hrel := (List.pairwise_append.mp hall).2.2
    have hstep := scanStep_inv tables qf pre st x hpp
      (fun it hit => hrel it hit x (List.mem_cons_self _ _)) hinv
    have h2 := ih (pre ++ [x]) (scanStep tables qf st x) hall2 hstep
    rw [List.append_assoc, List.singleton_append] at h2
    exact h2

/-- The scan of any pairwise-distinct observed list satisfies the
invariant. -/
theorem scan_inv (tables : ConfigTables) (qf : Str) (items : List Path)
    (h : items.Pairwise (fun a b => ¬ pceq a b)) :
    ScanInv tables qf items (Scan_AndOrganizeShortcuts tables qf items) := by
  have h2 := scan_inv_aux tables qf items [] {} (by simpa using h)
    (scanInv_nil tables qf)
  simpa using h2

/-- C6: an observed item whose name is unknown to the config (its
normalized full name matches no entry name or canonical name, nor does its
full name) is only ever planned as a quarantine into the quarantine folder:
every planned move sourced at it is quarantine-typed and targets the
quarantine folder, it is never slated for duplicate deletion, no recreation
entry carries a name matching it, and when it does not already sit in the
quarantine folder a quarantine action for it is actually planned. -/
theorem C6_thm (cfg : Config) (qf : Str) (items : List Path)
    (hpair : items.Pairwise (fun a b => ¬ pceq a b))
    (it : Path) (hit : it ∈ items) (hu : unknownName cfg it.name) :
    (∀ m ∈ (Scan_AndOrganizeShortcuts (Build_ConfigLookupTable cfg) qf
        items).plannedMoves,
      m.source = it → m.type = MType.quarantine ∧ m.dest.dir = some qf) ∧
    (∀ d ∈ (Scan_AndOrganizeShortcuts (Build_ConfigLookupTable cfg) qf
        items).plannedDeletes, d.path ≠ it) ∧
    (¬ odirCeq it.dir (some qf) →
      ∃ m ∈ (Scan_AndOrganizeShortcuts (Build_ConfigLookupTable cfg) qf
        items).plannedMoves,
        m.source = it ∧ m.type = MType.quarantine ∧ m.dest.dir = some qf) ∧
    (∀ ms ∈ Detect_MissingShortcuts
        (Build_ConfigLookupTable cfg).expectedMap
        (Scan_AndOrganizeShortcuts (Build_ConfigLookupTable cfg) qf
          items).processed
        (Build_ConfigLookupTable cfg).shortcutDetailsMap,
      ¬ ceq ms.name it.name) := by
  have hut : unknownTab (Build_ConfigLookupTable cfg) it.name :=
    unknownName_tab hu
  have hinv := scan_inv (Build_ConfigLookupTable cfg) qf items hpair
  refine ⟨?_, ?_, ?_, ?_⟩
  · intro m hm hms
    refine hinv.unkMove m hm ?_
    rw [hms]
    exact hut
  · intro d hdl he
    refine hinv.unkDel d hdl ?_
    rw [he]
    exact hut
  · intro hq
    exact hinv.unkWit it hit hut hq
  · intro ms hms hceq
    unfold Detect_MissingShortcuts at hms
    rw [detectMissing_foldl] at hms
    simp only [List.nil_append] at hms
    obtain ⟨kv, hkv, hnme, -, -, -, -⟩ := missingAux_shape _ _ _ _ ms hms
    obtain ⟨e, he, hek⟩ := pass2_keys hkv
    have hem : e.2.1 ∈ configNames cfg :=
      List.mem_map_of_mem (fun e => e.2.1) he
    have hceq2 : ceq kv.1 it.name := by
      rw [← hnme]
      exact hceq
    rcases hek with hek | hek
    · exact (hu e.2.1 hem).2.2.1 (hceq2.symm.trans hek)
    · exact (hu e.2.1 hem).2.2.2 (hceq2.symm.trans hek)

/-- C6 (witness): the theorem applied to the one-entry config and a single
unknown observed item. -/
theorem C6_witness :
    ([(⟨some (str "X"), str "zzz.lnk"⟩ : Path)].Pairwise
      (fun a b => ¬ pceq a b)) ∧
    ((⟨some (str "X"), str "zzz.lnk"⟩ : Path) ∈
      [(⟨some (str "X"), str "zzz.lnk"⟩ : Path)]) ∧
    unknownName cfgOneEntry (str "zzz.lnk") ∧
    ((∀ m ∈ (Scan_AndOrganizeShortcuts (Build_ConfigLookupTable cfgOneEntry)
        qUnsorted [(⟨some (str "X"), str "zzz.lnk"⟩ : Path)]).plannedMoves,
      m.source = (⟨some (str "X"), str "zzz.lnk"⟩ : Path) →
        m.type = MType.quarantine ∧ m.dest.dir = some qUnsorted) ∧
    (∀ d ∈ (Scan_AndOrganizeShortcuts (Build_ConfigLookupTable cfgOneEntry)
        qUnsorted [(⟨some (str "X"), str "zzz.lnk"⟩ : Path)]).plannedDeletes,
      d.path ≠ (⟨some (str "X"), str "zzz.lnk"⟩ : Path)) ∧
    (¬ odirCeq (some (str "X")) (some qUnsorted) →
      ∃ m ∈ (Scan_AndOrganizeShortcuts (Build_ConfigLookupTable cfgOneEntry)
        qUnsorted [(⟨some (str "X"), str "zzz.lnk"⟩ : Path)]).plannedMoves,
        m.source = (⟨some (str "X"), str "zzz.lnk"⟩ : Path) ∧
        m.type = MType.quarantine ∧ m.dest.dir = some qUnsorted) ∧
    (∀ ms ∈ Detect_MissingShortcuts
        (Build_ConfigLookupTable cfgOneEntry).expectedMap
        (Scan_AndOrganizeShortcuts (Build_ConfigLookupTable cfgOneEntry)
          qUnsorted [(⟨some (str "X"), str "zzz.lnk"⟩ : Path)]).processed
        (Build_ConfigLookupTable cfgOneEntry).shortcutDetailsMap,
      ¬ ceq ms.name (str "zzz.lnk"))) :=
  ⟨by decide, by decide, by unfold unknownName ; decide,
    C6_thm cfgOneEntry qUnsorted [⟨some (str "X"), str "zzz.lnk"⟩]
      (by decide) ⟨some (str "X"), str "zzz.lnk"⟩ (by decide)
      (by unfold unknownName ; decide)⟩

/-- C10: at every point during the scan (after any prefix of the observed
items, pairwise-distinct as filesystem paths are) and hence in the final
plan, no planned move or quarantine has a source path equal to the path of
any planned duplicate delete. -/
theorem C10_thm (tables : ConfigTables) (qf : Str) (items : List Path)
    (hpair : items.Pairwise (fun a b => ¬ pceq a b)) (i : Nat) :
    ∀ m ∈ (Scan_AndOrganizeShortcuts tables qf (items.take i)).plannedMoves,
      ∀ d ∈ (Scan_AndOrganizeShortcuts tables qf
        (items.take i)).plannedDeletes,
      ¬ pceq m.source d.path := by
  have hp2 : (items.take i).Pairwise (fun a b => ¬ pceq a b) :=
    List.Pairwise.sublist (List.take_sublist i items) hpair
  exact (scan_inv tables qf (items.take i) hp2).movesDel

/-- C10 (witness): the theorem applied to a two-item duplicate scenario in
which the scan plans both a move and a duplicate delete. -/
theorem C10_witness :
    ([(⟨some (str "G"), str "A v2.lnk"⟩ : Path),
      ⟨some (str "F"), str "A.lnk"⟩].Pairwise (fun a b => ¬ pceq a b)) ∧
    (∀ m ∈ (Scan_AndOrganizeShortcuts (Build_ConfigLookupTable cfgOneEntry)
        qUnsorted
        ([(⟨some (str "G"), str "A v2.lnk"⟩ : Path),
          ⟨some (str "F"), str "A.lnk"⟩].take 2)).plannedMoves,
      ∀ d ∈ (Scan_AndOrganizeShortcuts (Build_ConfigLookupTable cfgOneEntry)
        qUnsorted
        ([(⟨some (str "G"), str "A v2.lnk"⟩ : Path),
          ⟨some (str "F"), str "A.lnk"⟩].take 2)).plannedDeletes,
      ¬ pceq m.source d.path) :=
  ⟨by decide,
    C10_thm (Build_ConfigLookupTable cfgOneEntry) qUnsorted
      [⟨some (str "G"), str "A v2.lnk"⟩, ⟨some (str "F"), str "A.lnk"⟩]
      (by decide) 2⟩

/-- C1: enforcement is not idempotent.  On the one-entry config and the
tree with the nested empty folders `X` and `X\Y`, the first ENFORCE run
plans (and applies) only the empty-folder deletion of `X\Y` — `X` itself is
not slated because its child folder still counts as content — so the second
run on the resulting tree finds `X` newly empty and plans its deletion:
the second plan is not empty, refuting idempotence. -/
theorem C1_thm :
    (enforceRun cfgRecreatable qUnsorted treeNested).1.plannedMoves = [] ∧
    (enforceRun cfgRecreatable qUnsorted treeNested).1.plannedDeletes = [] ∧
    (enforceRun cfgRecreatable qUnsorted treeNested).1.missingShortcuts =
      [] ∧
    (enforceRun cfgRecreatable qUnsorted treeNested).1.emptyFolders =
      [{ path := str "X\\Y", displayFolder := str "X\\Y" }] ∧
    (enforceRun cfgRecreatable qUnsorted treeNested).2.folders =
      [str "F", str "X"] ∧
    (enforceRun cfgRecreatable qUnsorted
        (enforceRun cfgRecreatable qUnsorted treeNested).2).1.emptyFolders =
      [{ path := str "X", displayFolder := str "X" }] ∧
    planSize (enforceRun cfgRecreatable qUnsorted
        (enforceRun cfgRecreatable qUnsorted treeNested).2).1 ≠ 0 := by
  decide

end SMM
